import Mathlib

/-!
Verification of the kubermatic/application-catalog-manager synchronization and
admission-control subsystem: a shallow embedding of the Go sources
(`pkg/apis/applicationcatalog/v1alpha1`, `internal/controllers/synchronizer`,
`internal/pkg/admission/applicationcatalog/validation`, and the webhook
mutation package), together with theorems about the resolver precedence,
conversion, defaulting, conflict detection, version merging, orphan
unmanagement and reconciliation idempotence.

Go `nil` slices/pointers are modelled with `Option`; Go maps and Kubernetes
label/annotation maps are modelled as association lists (`List (String × String)`)
with insert-overwrite, lookup and delete operations mirroring Go map semantics.
-/

/-! ## Association-list operations (Go map / Kubernetes label semantics) -/

/-- Lookup of a key in an association list (Go `m[k]`, comma-ok form). -/
def getA {α : Type} (m : List (String × α)) (k : String) : Option α :=
  (m.find? (fun p => p.1 = k)).map (·.2)

/-- Insert-overwrite of a key in an association list (Go `m[k] = v`). -/
def setA {α : Type} (m : List (String × α)) (k : String) (v : α) : List (String × α) :=
  if m.any (fun p => p.1 = k) then
    m.map (fun p => if p.1 = k then (k, v) else p)
  else
    m ++ [(k, v)]

/-- Delete of a key from an association list (Go `delete(m, k)`). -/
def delA {α : Type} (m : List (String × α)) (k : String) : List (String × α) :=
  m.filter (fun p => ¬ p.1 = k)

/-! ## Data model: `pkg/apis/applicationcatalog/v1alpha1` -/

/-- `corev1.SecretKeySelector`: a (secret name, key) reference. -/
structure SecretKeySelector where
  name : String
  key : String
deriving DecidableEq

/-- `RepositoryCredentials` from `types.go`. -/
structure RepositoryCredentials where
  username : Option SecretKeySelector := none
  password : Option SecretKeySelector := none
  registryConfigFile : Option SecretKeySelector := none
deriving DecidableEq

/-- `RepositorySettings` from `types.go`: base URL plus optional credentials. -/
structure RepositorySettings where
  baseURL : String := ""
  credentials : Option RepositoryCredentials := none
deriving DecidableEq

/-- `ChartMetadata` from `types.go`. -/
structure ChartMetadata where
  appName : String := ""
  displayName : String := ""
  description : String := ""
  documentationURL : String := ""
  sourceURL : String := ""
  logo : String := ""
  logoFormat : String := ""
deriving DecidableEq

/-- `ChartVersion` from `types.go`. -/
structure ChartVersion where
  chartVersion : String
  appVersion : String
  repositorySettings : Option RepositorySettings := none
deriving DecidableEq

/-- `ChartConfig` from `types.go`. -/
structure ChartConfig where
  chartName : String
  metadata : Option ChartMetadata := none
  repositorySettings : Option RepositorySettings := none
  defaultValuesBlock : String := ""
  chartVersions : List ChartVersion := []
deriving DecidableEq

/-- `HelmSpec`: `charts = none` models the Go nil slice, distinct from `some []`. -/
structure HelmSpec where
  repositorySettings : Option RepositorySettings := none
  charts : Option (List ChartConfig) := none
  includeDefaults : Bool := false
deriving DecidableEq

/-- `ApplicationCatalog` (cluster-scoped, named). `anns` models
`metadata.annotations`. -/
structure ApplicationCatalog where
  name : String
  anns : List (String × String) := []
  helm : Option HelmSpec := none
deriving DecidableEq

/-- `LabelManagedByApplicationCatalog` from `constants.go`. -/
def LabelManagedByApplicationCatalog : String := "applicationcatalog.k8c.io/managed-by"

/-- `LabelApplicationCatalogName` from `constants.go`. -/
def LabelApplicationCatalogName : String := "applicationcatalog.k8c.io/catalog-name"

/-- `DefaultHelmRepository` from `constants.go`. -/
def DefaultHelmRepository : String := "oci://quay.io/kubermatic-mirror/helm-charts"

/-- The include-filter annotation key used by the defaulting engine and the
validation webhook. -/
def IncludeAnnKey : String := "defaultcatalog.k8c.io/include"

/-- `ChartConfig.GetAppName`: `metadata.appName` when present and non-empty,
else `chartName`. -/
def ChartConfig.GetAppName (c : ChartConfig) : String :=
  match c.metadata with
  | some m => if m.appName ≠ "" then m.appName else c.chartName
  | none => c.chartName

/-- `ApplicationCatalog.GetHelmCharts`: nil when `spec.helm` is nil. -/
def ApplicationCatalog.GetHelmCharts (ac : ApplicationCatalog) : Option (List ChartConfig) :=
  ac.helm.bind (·.charts)

/-- `ApplicationCatalog.GetGlobalRepositorySettings`. -/
def ApplicationCatalog.GetGlobalRepositorySettings (ac : ApplicationCatalog) :
    Option RepositorySettings :=
  ac.helm.bind (·.repositorySettings)

/-- `ApplicationCatalog.ResolveChartURL`: precedence
version-level > chart-level > global > `DefaultHelmRepository`. -/
def ApplicationCatalog.ResolveChartURL (ac : ApplicationCatalog) (chart : ChartConfig)
    (version : ChartVersion) : String :=
  match version.repositorySettings with
  | some rs =>
    if rs.baseURL ≠ "" then rs.baseURL else
      match chart.repositorySettings with
      | some crs =>
        if crs.baseURL ≠ "" then crs.baseURL else
          match ac.GetGlobalRepositorySettings with
          | some g => if g.baseURL ≠ "" then g.baseURL else DefaultHelmRepository
          | none => DefaultHelmRepository
      | none =>
        match ac.GetGlobalRepositorySettings with
        | some g => if g.baseURL ≠ "" then g.baseURL else DefaultHelmRepository
        | none => DefaultHelmRepository
  | none =>
    match chart.repositorySettings with
    | some crs =>
      if crs.baseURL ≠ "" then crs.baseURL else
        match ac.GetGlobalRepositorySettings with
        | some g => if g.baseURL ≠ "" then g.baseURL else DefaultHelmRepository
        | none => DefaultHelmRepository
    | none =>
      match ac.GetGlobalRepositorySettings with
      | some g => if g.baseURL ≠ "" then g.baseURL else DefaultHelmRepository
      | none => DefaultHelmRepository

/-- `ApplicationCatalog.ResolveChartCredentials`: credentials are returned from
the same layer whose `baseURL` won; nil when the hard-coded default wins. -/
def ApplicationCatalog.ResolveChartCredentials (ac : ApplicationCatalog) (chart : ChartConfig)
    (version : ChartVersion) : Option RepositoryCredentials :=
  match version.repositorySettings with
  | some rs =>
    if rs.baseURL ≠ "" then rs.credentials else
      match chart.repositorySettings with
      | some crs =>
        if crs.baseURL ≠ "" then crs.credentials else
          match ac.GetGlobalRepositorySettings with
          | some g => if g.baseURL ≠ "" then g.credentials else none
          | none => none
      | none =>
        match ac.GetGlobalRepositorySettings with
        | some g => if g.baseURL ≠ "" then g.credentials else none
        | none => none
  | none =>
    match chart.repositorySettings with
    | some crs =>
      if crs.baseURL ≠ "" then crs.credentials else
        match ac.GetGlobalRepositorySettings with
        | some g => if g.baseURL ≠ "" then g.credentials else none
        | none => none
    | none =>
      match ac.GetGlobalRepositorySettings with
      | some g => if g.baseURL ≠ "" then g.credentials else none
      | none => none

/-- Specification-side description of the four-layer precedence: the first
settings layer (version, chart, global, in that order) whose `baseURL` is
non-empty, or `none` when every layer is absent or empty (the hard-coded
default layer then wins). Written from the spec's words for the refinement
statement of claim C1. -/
def winningLayer (ac : ApplicationCatalog) (chart : ChartConfig) (version : ChartVersion) :
    Option RepositorySettings :=
  [version.repositorySettings, chart.repositorySettings, ac.GetGlobalRepositorySettings].findSome?
    (fun s => match s with
      | some rs => if rs.baseURL ≠ "" then some rs else none
      | none => none)

/-- C1 — the resolved repository URL is the `baseURL` of the first non-empty
layer (version > chart > global > hard-coded default, a present settings object
with an empty `baseURL` counting as absent), and the resolved credentials are
exactly the credentials stored at that same winning layer, `none` when the
hard-coded default layer wins; both functions are total. -/
theorem resolve_precedence_first_nonempty_layer (ac : ApplicationCatalog)
    (chart : ChartConfig) (version : ChartVersion) :
    ac.ResolveChartURL chart version =
      ((winningLayer ac chart version).map (·.baseURL)).getD DefaultHelmRepository ∧
    ac.ResolveChartCredentials chart version =
      (winningLayer ac chart version).bind (·.credentials) := by
  unfold ApplicationCatalog.ResolveChartURL ApplicationCatalog.ResolveChartCredentials
    winningLayer
  rcases version.repositorySettings with _ | rs <;>
    rcases chart.repositorySettings with _ | crs <;>
      rcases hg : ac.GetGlobalRepositorySettings with _ | g <;>
        simp [List.findSome?, hg] <;>
          first
          | (by_cases h1 : rs.baseURL = "" <;> simp [h1] <;>
              first
              | rfl
              | (by_cases h2 : crs.baseURL = "" <;> simp [h2] <;>
                  first
                  | rfl
                  | (by_cases h3 : g.baseURL = "" <;> simp [h3]))
              | (by_cases h3 : g.baseURL = "" <;> simp [h3]))
          | (by_cases h2 : crs.baseURL = "" <;> simp [h2] <;>
              first
              | rfl
              | (by_cases h3 : g.baseURL = "" <;> simp [h3]))
          | (by_cases h3 : g.baseURL = "" <;> simp [h3])

/-! ## Downstream resource model: `appskubermaticv1.ApplicationDefinition`
(only the identity, labels and the spec fields the system reads/writes). -/

/-- `appskubermaticv1.HelmCredentials`. -/
structure HelmCredentials where
  username : Option SecretKeySelector := none
  password : Option SecretKeySelector := none
  registryConfigFile : Option SecretKeySelector := none
deriving DecidableEq

/-- `appskubermaticv1.HelmSource` (`Template.Source.Helm`). -/
structure HelmSource where
  chartName : String
  chartVersion : String
  url : String
  credentials : Option HelmCredentials := none
deriving DecidableEq

/-- `appskubermaticv1.ApplicationVersion`; `helm` stands for
`Template.Source.Helm` (the only template field this system writes). -/
structure ApplicationVersion where
  version : String
  helm : Option HelmSource := none
deriving DecidableEq

/-- The subset of `appskubermaticv1.ApplicationDefinitionSpec` this system
reads or writes; `selectorDatacenters` stands for `Selector.Datacenters`
(`none` models the Go nil slice). -/
structure ApplicationDefinitionSpec where
  displayName : String := ""
  description : String := ""
  documentationURL : String := ""
  sourceURL : String := ""
  logo : String := ""
  logoFormat : String := ""
  method : String := "helm"
  defaultValuesBlock : String := ""
  enforced : Bool := false
  default : Bool := false
  selectorDatacenters : Option (List String) := none
  versions : List ApplicationVersion := []
deriving DecidableEq

/-- `appskubermaticv1.ApplicationDefinition`: cluster-scoped name, labels,
annotations and spec. -/
structure ApplicationDefinition where
  name : String
  labels : List (String × String) := []
  anns : List (String × String) := []
  spec : ApplicationDefinitionSpec
deriving DecidableEq

/-! ## Converter: `internal/controllers/synchronizer/converter.go` -/

/-- `convertCredentials`. -/
def convertCredentials (creds : RepositoryCredentials) : HelmCredentials :=
  { username := creds.username
    password := creds.password
    registryConfigFile := creds.registryConfigFile }

/-- `convertVersions`: one `ApplicationVersion` per `ChartVersion`, keyed by
`appVersion`, with the resolved URL and credentials. -/
def convertVersions (ac : ApplicationCatalog) (chart : ChartConfig) :
    List ApplicationVersion :=
  chart.chartVersions.map fun cv =>
    { version := cv.appVersion
      helm := some
        { chartName := chart.chartName
          chartVersion := cv.chartVersion
          url := ac.ResolveChartURL chart cv
          credentials := (ac.ResolveChartCredentials chart cv).map convertCredentials } }

/-- `convertChartToApplicationDefinition`. -/
def convertChartToApplicationDefinition (ac : ApplicationCatalog) (chart : ChartConfig) :
    ApplicationDefinition :=
  { name := chart.GetAppName
    labels := [(LabelManagedByApplicationCatalog, "true"),
               (LabelApplicationCatalogName, ac.name)]
    anns := []
    spec :=
      { method := "helm"
        defaultValuesBlock := chart.defaultValuesBlock
        versions := convertVersions ac chart
        displayName := (chart.metadata.map (·.displayName)).getD ""
        description := (chart.metadata.map (·.description)).getD ""
        documentationURL := (chart.metadata.map (·.documentationURL)).getD ""
        sourceURL := (chart.metadata.map (·.sourceURL)).getD ""
        logo := (chart.metadata.map (·.logo)).getD ""
        logoFormat := (chart.metadata.map (·.logoFormat)).getD "" } }

/-! ## Version merge: `mergeVersions` and the sort in
`updateApplicationDefinition` (`reconciler.go`) -/

/-- The Go `existingIndex` map: application-version key to its (last) index in
`existing`, built by insert-overwrite exactly as the Go range loop does. -/
def buildVersionIndex (l : List ApplicationVersion) : List (String × Nat) :=
  l.enum.foldl (fun m p => setA m p.2.version p.1) []

/-- `mergeVersions` from `reconciler.go`: keep `existing`, replace in place the
entries whose key the desired list also carries, append the rest. -/
def mergeVersions (existing desired : List ApplicationVersion) :
    List ApplicationVersion :=
  if existing.isEmpty then desired
  else if desired.isEmpty then existing
  else
    desired.foldl
      (fun res d =>
        match getA (buildVersionIndex existing) d.version with
        | some i => res.set i d
        | none => res ++ [d])
      existing

/-- The comparison used by the `sort.Slice` call in
`updateApplicationDefinition` (ascending by application-version key). -/
def versionLE (a b : ApplicationVersion) : Prop := a.version ≤ b.version

instance : DecidableRel versionLE := fun a b =>
  decidable_of_iff (a.version.toList ≤ b.version.toList) String.le_iff_toList_le.symm

instance : IsTotal ApplicationVersion versionLE :=
  ⟨fun a b => le_total a.version b.version⟩

instance : IsTrans ApplicationVersion versionLE :=
  ⟨fun _ _ _ h h' => le_trans h h'⟩

/-- The sort applied to the merged versions in `updateApplicationDefinition`
(`sort.Slice` by `Version <`; modelled as a deterministic sort by the same
key, which agrees with any Go sort order on duplicate-free keys). -/
def sortVersions (l : List ApplicationVersion) : List ApplicationVersion :=
  l.insertionSort versionLE

/-- Replacement function appearing in the declarative description of
`mergeVersions`: the desired entry with the same key, if any, else the
existing entry. -/
def replaceByKey (ds : List ApplicationVersion) (e : ApplicationVersion) :
    ApplicationVersion :=
  (ds.find? (fun d => d.version = e.version)).getD e

/-- Declarative form of `mergeVersions` (proved equal to it on duplicate-free
keys): existing entries with colliding keys replaced, new desired entries
appended in order. -/
def specMergeVersions (existing desired : List ApplicationVersion) :
    List ApplicationVersion :=
  existing.map (replaceByKey desired)
    ++ desired.filter (fun d => !(existing.any (fun e => e.version = d.version)))

/-- Lookup of a version entry by its application-version key. -/
def findByKey (l : List ApplicationVersion) (k : String) : Option ApplicationVersion :=
  l.find? (fun v => v.version = k)

/-! ## Association-list and index lemmas -/

theorem mem_setA {α : Type} {m : List (String × α)} {k : String} {v : α} {p : String × α}
    (h : p ∈ setA m k v) : p ∈ m ∨ p = (k, v) := by
  unfold setA at h
  split at h
  · obtain ⟨q, hq, hfq⟩ := List.mem_map.mp h
    by_cases hk : q.1 = k
    · right; rw [← hfq]; simp [hk]
    · left; rw [← hfq]; simpa [hk] using hq
  · rcases List.mem_append.mp h with h' | h'
    · exact Or.inl h'
    · right; simpa using h'

theorem getA_mem {α : Type} {m : List (String × α)} {k : String} {v : α}
    (h : getA m k = some v) : (k, v) ∈ m := by
  unfold getA at h
  cases hf : m.find? (fun p => p.1 = k) with
  | none => rw [hf] at h; simp at h
  | some q =>
    have hm := List.mem_of_find?_eq_some hf
    have hp : q.1 = k := by simpa using List.find?_some hf
    rw [hf] at h
    simp at h
    have : (k, v) = q := by
      cases q
      simp_all
    rw [this]
    exact hm

theorem any_key_setA_self {α : Type} (m : List (String × α)) (k : String) (v : α) :
    (setA m k v).any (fun p => p.1 = k) = true := by
  unfold setA
  split
  · rename_i hany
    obtain ⟨q, hq, hqk⟩ := List.any_eq_true.mp hany
    simp only [decide_eq_true_eq] at hqk
    refine List.any_eq_true.mpr ⟨(k, v), List.mem_map.mpr ⟨q, hq, by simp [hqk]⟩, by simp⟩
  · refine List.any_eq_true.mpr ⟨(k, v), List.mem_append_right _ (by simp), by simp⟩

theorem any_key_setA_of_any {α : Type} {m : List (String × α)} {k : String} (k' : String)
    (v : α) (h : m.any (fun p => p.1 = k) = true) :
    (setA m k' v).any (fun p => p.1 = k) = true := by
  by_cases hkk : k = k'
  · subst hkk; exact any_key_setA_self m k v
  · obtain ⟨q, hq, hqk⟩ := List.any_eq_true.mp h
    simp only [decide_eq_true_eq] at hqk
    unfold setA
    split
    · refine List.any_eq_true.mpr ⟨q, List.mem_map.mpr ⟨q, hq, ?_⟩, by simp [hqk]⟩
      have : ¬ q.1 = k' := by rw [hqk]; exact hkk
      simp [this]
    · exact List.any_eq_true.mpr ⟨q, List.mem_append_left _ hq, by simp [hqk]⟩

theorem getA_eq_none_iff {α : Type} {m : List (String × α)} {k : String} :
    getA m k = none ↔ m.any (fun p => p.1 = k) = false := by
  unfold getA
  rw [Option.map_eq_none', List.find?_eq_none, List.any_eq_false]

theorem foldl_setA_mem {α β : Type} (f : β → String) (g : β → α) :
    ∀ (xs : List β) (m0 : List (String × α)) (p : String × α),
      p ∈ xs.foldl (fun m q => setA m (f q) (g q)) m0 → p ∈ m0 ∨ ∃ q ∈ xs, p = (f q, g q) := by
  intro xs
  induction xs with
  | nil => intro m0 p h; exact Or.inl h
  | cons x xs ih =>
    intro m0 p h
    rw [List.foldl_cons] at h
    rcases ih _ p h with h' | ⟨q, hq, hpq⟩
    · rcases mem_setA h' with h'' | h''
      · exact Or.inl h''
      · exact Or.inr ⟨x, List.mem_cons_self x xs, h''⟩
    · exact Or.inr ⟨q, List.mem_cons_of_mem _ hq, hpq⟩

theorem foldl_setA_any_key {α β : Type} (f : β → String) (g : β → α) :
    ∀ (xs : List β) (m0 : List (String × α)) (k : String),
      ((∃ q ∈ xs, f q = k) ∨ m0.any (fun p => p.1 = k) = true) →
      (xs.foldl (fun m q => setA m (f q) (g q)) m0).any (fun p => p.1 = k) = true := by
  intro xs
  induction xs with
  | nil =>
    intro m0 k h
    rcases h with ⟨q, hq, _⟩ | h
    · exact absurd hq (List.not_mem_nil q)
    · exact h
  | cons x xs ih =>
    intro m0 k h
    rw [List.foldl_cons]
    apply ih
    rcases h with ⟨q, hq, hfq⟩ | h
    · rcases List.mem_cons.mp hq with rfl | hq'
      · right; rw [← hfq]; exact any_key_setA_self m0 (f q) (g q)
      · exact Or.inl ⟨q, hq', hfq⟩
    · exact Or.inr (any_key_setA_of_any _ _ h)

theorem buildVersionIndex_sound {l : List ApplicationVersion} {k : String} {i : Nat}
    (h : getA (buildVersionIndex l) k = some i) :
    ∃ e, l[i]? = some e ∧ e.version = k := by
  have hmem := getA_mem h
  unfold buildVersionIndex at hmem
  rcases foldl_setA_mem (fun p => p.2.version) (fun p => p.1) l.enum [] _ hmem with h' | ⟨q, hq, hpq⟩
  · exact absurd h' (List.not_mem_nil _)
  · have h1 : k = q.2.version := congrArg Prod.fst hpq
    have h2 : i = q.1 := congrArg Prod.snd hpq
    refine ⟨q.2, ?_, h1.symm⟩
    rw [h2]
    have : (q.1, q.2) ∈ l.enum := by cases q; exact hq
    exact List.mk_mem_enum_iff_getElem?.mp this

theorem buildVersionIndex_none_iff {l : List ApplicationVersion} {k : String} :
    getA (buildVersionIndex l) k = none ↔ k ∉ l.map (·.version) := by
  constructor
  · intro h hk
    rw [getA_eq_none_iff] at h
    obtain ⟨e, he, hek⟩ := List.mem_map.mp hk
    obtain ⟨j, hjl, hje⟩ := List.getElem_of_mem he
    have hany : (buildVersionIndex l).any (fun p => p.1 = k) = true := by
      unfold buildVersionIndex
      apply foldl_setA_any_key
      refine Or.inl ⟨(j, e), ?_, hek⟩
      exact List.mk_mem_enum_iff_getElem?.mpr (by simp [hjl, hje])
    rw [h] at hany
    exact Bool.false_ne_true hany
  · intro hk
    cases hg : getA (buildVersionIndex l) k with
    | none => rfl
    | some i =>
      obtain ⟨e, he, hek⟩ := buildVersionIndex_sound hg
      exact absurd (List.mem_map.mpr ⟨e, List.getElem?_mem he, hek⟩) hk

theorem buildVersionIndex_unique {l : List ApplicationVersion} {k : String} {i j : Nat}
    {e : ApplicationVersion}
    (hn : (l.map (·.version)).Nodup)
    (h : getA (buildVersionIndex l) k = some i)
    (hj : l[j]? = some e) (hek : e.version = k) : j = i := by
  obtain ⟨e', hi, hek'⟩ := buildVersionIndex_sound h
  obtain ⟨hjl, hje⟩ := List.getElem?_eq_some.mp hj
  obtain ⟨hil, hie⟩ := List.getElem?_eq_some.mp hi
  have hjl' : j < (l.map (·.version)).length := by simpa using hjl
  have hil' : i < (l.map (·.version)).length := by simpa using hil
  have : (l.map (·.version))[j] = (l.map (·.version))[i] := by
    rw [List.getElem_map, List.getElem_map, hje, hie, hek, hek']
  exact (hn.getElem_inj_iff).mp this

/-! ## Characterization of `mergeVersions` on duplicate-free keys -/

theorem replaceByKey_version (ds : List ApplicationVersion) (e : ApplicationVersion) :
    (replaceByKey ds e).version = e.version := by
  unfold replaceByKey
  cases hf : ds.find? (fun d => d.version = e.version) with
  | none => rfl
  | some d =>
    have : d.version = e.version := by simpa using List.find?_some hf
    simpa using this

theorem specMerge_snoc_none (existing prev : List ApplicationVersion)
    (d : ApplicationVersion)
    (hg : getA (buildVersionIndex existing) d.version = none) :
    specMergeVersions existing prev ++ [d] = specMergeVersions existing (prev ++ [d]) := by
  have hnew : d.version ∉ existing.map (·.version) := buildVersionIndex_none_iff.mp hg
  have hanyf : existing.any (fun e => e.version = d.version) = false := by
    rw [List.any_eq_false]
    intro e hee hed
    simp only [decide_eq_true_eq] at hed
    exact hnew (List.mem_map.mpr ⟨e, hee, hed⟩)
  unfold specMergeVersions
  rw [List.append_assoc]
  congr 1
  · apply List.map_congr_left
    intro e hee
    unfold replaceByKey
    rw [List.find?_append]
    have hde : ([d].find? (fun p => p.version = e.version)) = none := by
      have hne : ¬ (d.version = e.version) := fun hh =>
        hnew (hh ▸ List.mem_map.mpr ⟨e, hee, rfl⟩)
      simp [List.find?, hne]
    rw [hde, Option.or_none]
  · rw [List.filter_append]
    simp [List.filter, hanyf]

theorem specMerge_snoc_some (existing prev : List ApplicationVersion)
    (d : ApplicationVersion) {i : Nat}
    (he : (existing.map (·.version)).Nodup)
    (hdp : d.version ∉ prev.map (·.version))
    (hg : getA (buildVersionIndex existing) d.version = some i) :
    (specMergeVersions existing prev).set i d = specMergeVersions existing (prev ++ [d]) := by
  have hfp : prev.find? (fun p => p.version = d.version) = none := by
    rw [List.find?_eq_none]
    intro p hp hpd
    simp only [decide_eq_true_eq] at hpd
    exact hdp (List.mem_map.mpr ⟨p, hp, hpd⟩)
  obtain ⟨e₀, he₀, he₀k⟩ := buildVersionIndex_sound hg
  obtain ⟨hilt, hie⟩ := List.getElem?_eq_some.mp he₀
  have hany : existing.any (fun e => e.version = d.version) = true :=
    List.any_eq_true.mpr ⟨e₀, List.getElem?_mem he₀, by simp [he₀k]⟩
  unfold specMergeVersions
  rw [List.set_append_left _ _ (by simpa using hilt)]
  congr 1
  · apply List.ext_getElem?
    intro j
    by_cases hji : j = i
    · subst hji
      rw [List.getElem?_set_self (by simpa using hilt), List.getElem?_map, he₀]
      have hrep : replaceByKey (prev ++ [d]) e₀ = d := by
        unfold replaceByKey
        simp only [he₀k]
        rw [List.find?_append, hfp]
        simp [List.find?]
      rw [Option.map_some', hrep]
    · rw [List.getElem?_set_ne (Ne.symm hji), List.getElem?_map, List.getElem?_map]
      cases hje : existing[j]? with
      | none => rfl
      | some e =>
        have hne : ¬ (e.version = d.version) := fun hh =>
          hji (buildVersionIndex_unique he hg hje hh)
        have hrep : replaceByKey prev e = replaceByKey (prev ++ [d]) e := by
          unfold replaceByKey
          rw [List.find?_append]
          have hds : ([d].find? (fun p => p.version = e.version)) = none := by
            have hne' : ¬ (d.version = e.version) := fun hh => hne hh.symm
            simp [List.find?, hne']
          rw [hds, Option.or_none]
        rw [Option.map_some', Option.map_some', hrep]
  · rw [List.filter_append]
    simp [List.filter, hany]

theorem mergeVersions_foldl_spec (existing : List ApplicationVersion)
    (he : (existing.map (·.version)).Nodup) :
    ∀ (ds prev : List ApplicationVersion),
      ((prev ++ ds).map (·.version)).Nodup →
      ds.foldl (fun res d =>
          match getA (buildVersionIndex existing) d.version with
          | some i => res.set i d
          | none => res ++ [d])
        (specMergeVersions existing prev)
      = specMergeVersions existing (prev ++ ds) := by
  intro ds
  induction ds with
  | nil => intro prev _; simp
  | cons d ds ih =>
    intro prev hnd
    rw [List.foldl_cons]
    have hdp : d.version ∉ prev.map (·.version) := by
      rw [List.map_append, List.nodup_append] at hnd
      intro hmem
      exact hnd.2.2 hmem (by simp)
    have hstep :
        (match getA (buildVersionIndex existing) d.version with
          | some i => (specMergeVersions existing prev).set i d
          | none => specMergeVersions existing prev ++ [d])
        = specMergeVersions existing (prev ++ [d]) := by
      cases hg : getA (buildVersionIndex existing) d.version with
      | none => exact specMerge_snoc_none existing prev d hg
      | some i => exact specMerge_snoc_some existing prev d he hdp hg
    rw [hstep]
    have := ih (prev ++ [d]) (by simpa using hnd)
    simpa using this

theorem mergeVersions_eq_spec (existing desired : List ApplicationVersion)
    (he : (existing.map (·.version)).Nodup)
    (hd : (desired.map (·.version)).Nodup) :
    mergeVersions existing desired = specMergeVersions existing desired := by
  have hspec0 : specMergeVersions existing [] = existing := by
    unfold specMergeVersions replaceByKey
    simp
  unfold mergeVersions
  by_cases h1 : existing.isEmpty
  · have hex : existing = [] := by
      cases existing with
      | nil => rfl
      | cons a l => simp [List.isEmpty] at h1
    subst hex
    unfold specMergeVersions
    simp [h1]
  · by_cases h2 : desired.isEmpty
    · have hde : desired = [] := by
        cases desired with
        | nil => rfl
        | cons a l => simp [List.isEmpty] at h2
      subst hde
      simp [h1, hspec0]
    · simp only [h1, h2, if_false]
      have := mergeVersions_foldl_spec existing he desired [] (by simpa using hd)
      rw [hspec0] at this
      simpa using this

/-! ## Lookup-by-key lemmas and sorting -/

theorem findByKey_eq_some_of_mem {l : List ApplicationVersion} {v : ApplicationVersion}
    (hn : (l.map (·.version)).Nodup) (hv : v ∈ l) : findByKey l v.version = some v := by
  induction l with
  | nil => exact absurd hv (List.not_mem_nil v)
  | cons x xs ih =>
    unfold findByKey
    rcases List.mem_cons.mp hv with rfl | hv'
    · simp [List.find?]
    · have hxk : ¬ (x.version = v.version) := by
        intro hh
        rw [List.map_cons] at hn
        exact (List.nodup_cons.mp hn).1 (hh ▸ List.mem_map.mpr ⟨v, hv', rfl⟩)
      rw [List.find?]
      simp only [hxk, decide_False]
      exact ih (by rw [List.map_cons] at hn; exact (List.nodup_cons.mp hn).2) hv'

theorem findByKey_eq_none {l : List ApplicationVersion} {k : String}
    (h : k ∉ l.map (·.version)) : findByKey l k = none := by
  unfold findByKey
  rw [List.find?_eq_none]
  intro v hv hvk
  simp only [decide_eq_true_eq] at hvk
  exact h (List.mem_map.mpr ⟨v, hv, hvk⟩)

theorem mem_key_inj {l : List ApplicationVersion} {v w : ApplicationVersion}
    (hn : (l.map (·.version)).Nodup) (hv : v ∈ l) (hw : w ∈ l)
    (hk : v.version = w.version) : v = w := by
  have h1 := findByKey_eq_some_of_mem hn hv
  have h2 := findByKey_eq_some_of_mem hn hw
  rw [hk, h2] at h1
  exact (Option.some_inj.mp h1).symm

theorem findByKey_perm {l l' : List ApplicationVersion} (hp : l.Perm l')
    (hn : (l.map (·.version)).Nodup) (k : String) : findByKey l k = findByKey l' k := by
  have hn' : (l'.map (·.version)).Nodup := ((hp.map (·.version)).nodup_iff).mp hn
  cases hf : findByKey l k with
  | none =>
    have hk : k ∉ l.map (·.version) := by
      intro hk
      obtain ⟨v, hv, hvk⟩ := List.mem_map.mp hk
      rw [← hvk, findByKey_eq_some_of_mem hn hv] at hf
      exact Option.noConfusion hf
    exact (findByKey_eq_none (fun hk' => hk ((hp.map (·.version)).mem_iff.mpr hk'))).symm
  | some v =>
    have hv : v ∈ l := List.mem_of_find?_eq_some hf
    have hvk : v.version = k := by simpa using List.find?_some hf
    rw [← hvk]
    exact (findByKey_eq_some_of_mem hn' (hp.mem_iff.mp hv)).symm

theorem specMerge_keys (existing desired : List ApplicationVersion) :
    (specMergeVersions existing desired).map (·.version)
    = existing.map (·.version)
      ++ (desired.filter
            (fun d => !(existing.any (fun e => e.version = d.version)))).map (·.version) := by
  unfold specMergeVersions
  rw [List.map_append, List.map_map]
  congr 1
  apply List.map_congr_left
  intro e _
  exact replaceByKey_version desired e

theorem specMerge_keys_nodup {existing desired : List ApplicationVersion}
    (he : (existing.map (·.version)).Nodup)
    (hd : (desired.map (·.version)).Nodup) :
    ((specMergeVersions existing desired).map (·.version)).Nodup := by
  rw [specMerge_keys, List.nodup_append]
  refine ⟨he, ?_, ?_⟩
  · exact ((List.filter_sublist desired).map (·.version)).nodup hd
  · intro k hk1 hk2
    obtain ⟨d, hdm, hdk⟩ := List.mem_map.mp hk2
    obtain ⟨hdm', hpred⟩ := List.mem_filter.mp hdm
    obtain ⟨e, hee, hek⟩ := List.mem_map.mp hk1
    have : existing.any (fun x => x.version = d.version) = true :=
      List.any_eq_true.mpr ⟨e, hee, by simp [hek, hdk]⟩
    rw [this] at hpred
    exact Bool.noConfusion hpred

theorem specMerge_mem_of_desired_key {existing desired : List ApplicationVersion}
    (hd : (desired.map (·.version)).Nodup)
    {v : ApplicationVersion} (hv : v ∈ specMergeVersions existing desired)
    {d : ApplicationVersion} (hdm : d ∈ desired) (hk : v.version = d.version) : v = d := by
  unfold specMergeVersions at hv
  rcases List.mem_append.mp hv with hv' | hv'
  · obtain ⟨e, hee, hrep⟩ := List.mem_map.mp hv'
    rw [← hrep] at hk ⊢
    rw [replaceByKey_version] at hk
    unfold replaceByKey
    cases hf : desired.find? (fun x => x.version = e.version) with
    | none =>
      rw [List.find?_eq_none] at hf
      exact absurd (by simp [hk]) (hf d hdm)
    | some d' =>
      have hd'm : d' ∈ desired := List.mem_of_find?_eq_some hf
      have hd'k : d'.version = e.version := by simpa using List.find?_some hf
      simp only [Option.getD_some]
      exact mem_key_inj hd hd'm hdm (hd'k.trans hk)
  · exact mem_key_inj hd (List.mem_filter.mp hv').1 hdm hk

theorem findByKey_specMerge_desired {existing desired : List ApplicationVersion}
    (he : (existing.map (·.version)).Nodup)
    (hd : (desired.map (·.version)).Nodup)
    {k : String} (hk : k ∈ desired.map (·.version)) :
    findByKey (specMergeVersions existing desired) k = findByKey desired k := by
  obtain ⟨d, hdm, hdk⟩ := List.mem_map.mp hk
  have hfd : findByKey desired k = some d := hdk ▸ findByKey_eq_some_of_mem hd hdm
  rw [hfd]
  have hdmem : d ∈ specMergeVersions existing desired := by
    unfold specMergeVersions
    by_cases hke : k ∈ existing.map (·.version)
    · obtain ⟨e, hee, hek⟩ := List.mem_map.mp hke
      refine List.mem_append_left _ (List.mem_map.mpr ⟨e, hee, ?_⟩)
      unfold replaceByKey
      have : desired.find? (fun x => x.version = e.version) = some d := by
        have : findByKey desired e.version = some d := by rw [hek]; exact hfd
        exact this
      rw [this, Option.getD_some]
    · refine List.mem_append_right _ (List.mem_filter.mpr ⟨hdm, ?_⟩)
      have : existing.any (fun e => e.version = d.version) = false := by
        rw [List.any_eq_false]
        intro e hee heq
        simp only [decide_eq_true_eq] at heq
        exact hke (List.mem_map.mpr ⟨e, hee, heq.trans hdk⟩)
      simp [this]
  have := findByKey_eq_some_of_mem (specMerge_keys_nodup he hd) hdmem
  rw [hdk] at this
  exact this

theorem findByKey_specMerge_existing_only {existing desired : List ApplicationVersion}
    (he : (existing.map (·.version)).Nodup)
    (hd : (desired.map (·.version)).Nodup)
    {k : String} (hke : k ∈ existing.map (·.version))
    (hkd : k ∉ desired.map (·.version)) :
    findByKey (specMergeVersions existing desired) k = findByKey existing k := by
  obtain ⟨e, hee, hek⟩ := List.mem_map.mp hke
  have hfe : findByKey existing k = some e := hek ▸ findByKey_eq_some_of_mem he hee
  rw [hfe]
  have hmem : e ∈ specMergeVersions existing desired := by
    unfold specMergeVersions
    refine List.mem_append_left _ (List.mem_map.mpr ⟨e, hee, ?_⟩)
    unfold replaceByKey
    have : desired.find? (fun x => x.version = e.version) = none := by
      rw [List.find?_eq_none]
      intro d hdm hdk
      simp only [decide_eq_true_eq] at hdk
      exact hkd (List.mem_map.mpr ⟨d, hdm, hdk.trans hek⟩)
    rw [this, Option.getD_none]
  have := findByKey_eq_some_of_mem (specMerge_keys_nodup he hd) hmem
  rw [hek] at this
  exact this

theorem sortVersions_perm (l : List ApplicationVersion) : (sortVersions l).Perm l :=
  List.perm_insertionSort versionLE l

theorem sortVersions_sorted (l : List ApplicationVersion) :
    List.Sorted versionLE (sortVersions l) :=
  List.sorted_insertionSort versionLE l

theorem sortVersions_eq_of_sorted {l : List ApplicationVersion}
    (h : List.Sorted versionLE l) : sortVersions l = l :=
  List.Sorted.insertionSort_eq h

theorem sortVersions_keys_sorted (l : List ApplicationVersion) :
    List.Sorted (· ≤ ·) ((sortVersions l).map (·.version)) :=
  List.Pairwise.map _ (fun _ _ h => h) (sortVersions_sorted l)

/-- C5 — merging an existing and a desired version list (as
`updateApplicationDefinition` does: `mergeVersions` followed by the
ascending sort on the application-version key) keeps every existing key,
replaces the entry of every key the catalog still declares with the desired
entry, carries over (appends) entries with new keys, and yields a list
sorted ascending by key. Keys are assumed duplicate-free on both sides, as
produced by the converter and stored in the cluster. -/
theorem merge_versions_keeps_replaces_appends_sorts
    (existing desired : List ApplicationVersion)
    (he : (existing.map (·.version)).Nodup)
    (hd : (desired.map (·.version)).Nodup) :
    (∀ k ∈ existing.map (·.version),
        k ∈ (sortVersions (mergeVersions existing desired)).map (·.version)) ∧
    (∀ k ∈ desired.map (·.version),
        findByKey (sortVersions (mergeVersions existing desired)) k
          = findByKey desired k) ∧
    (∀ k ∈ existing.map (·.version), k ∉ desired.map (·.version) →
        findByKey (sortVersions (mergeVersions existing desired)) k
          = findByKey existing k) ∧
    List.Sorted (· ≤ ·)
      ((sortVersions (mergeVersions existing desired)).map (·.version)) := by
  rw [mergeVersions_eq_spec existing desired he hd]
  have hperm := sortVersions_perm (specMergeVersions existing desired)
  have hkeys := specMerge_keys_nodup he hd
  have hsortkeys : ((sortVersions (specMergeVersions existing desired)).map (·.version)).Nodup :=
    ((hperm.map (·.version)).nodup_iff).mpr hkeys
  have hfk : ∀ k, findByKey (sortVersions (specMergeVersions existing desired)) k
      = findByKey (specMergeVersions existing desired) k := by
    intro k
    exact findByKey_perm hperm hsortkeys k
  refine ⟨?_, ?_, ?_, sortVersions_keys_sorted _⟩
  · intro k hk
    rw [List.mem_map] at hk ⊢
    obtain ⟨e, hee, hek⟩ := hk
    have hmem : replaceByKey desired e ∈ specMergeVersions existing desired := by
      unfold specMergeVersions
      exact List.mem_append_left _ (List.mem_map.mpr ⟨e, hee, rfl⟩)
    exact ⟨replaceByKey desired e, hperm.mem_iff.mpr hmem,
      (replaceByKey_version desired e).trans hek⟩
  · intro k hk
    rw [hfk k]
    exact findByKey_specMerge_desired he hd hk
  · intro k hk hkd
    rw [hfk k]
    exact findByKey_specMerge_existing_only he hd hk hkd

/-- C5 witness: a concrete instance with an updated key `v1`, a preserved
key `v2` no longer declared, and a new key `v0`, checked by evaluation. -/
theorem merge_versions_witness :
    (([{ version := "v1", helm := some { chartName := "c", chartVersion := "1", url := "a" } },
       { version := "v2" }] : List ApplicationVersion).map (·.version)).Nodup ∧
    (([{ version := "v1", helm := some { chartName := "c", chartVersion := "2", url := "b" } },
       { version := "v0" }] : List ApplicationVersion).map (·.version)).Nodup ∧
    ((∀ k ∈ ([{ version := "v1", helm := some { chartName := "c", chartVersion := "1", url := "a" } },
       { version := "v2" }] : List ApplicationVersion).map (·.version),
        k ∈ (sortVersions (mergeVersions
          [{ version := "v1", helm := some { chartName := "c", chartVersion := "1", url := "a" } },
           { version := "v2" }]
          [{ version := "v1", helm := some { chartName := "c", chartVersion := "2", url := "b" } },
           { version := "v0" }])).map (·.version)) ∧
     (∀ k ∈ ([{ version := "v1", helm := some { chartName := "c", chartVersion := "2", url := "b" } },
       { version := "v0" }] : List ApplicationVersion).map (·.version),
        findByKey (sortVersions (mergeVersions
          [{ version := "v1", helm := some { chartName := "c", chartVersion := "1", url := "a" } },
           { version := "v2" }]
          [{ version := "v1", helm := some { chartName := "c", chartVersion := "2", url := "b" } },
           { version := "v0" }])) k
          = findByKey
          [{ version := "v1", helm := some { chartName := "c", chartVersion := "2", url := "b" } },
           { version := "v0" }] k) ∧
     (∀ k ∈ ([{ version := "v1", helm := some { chartName := "c", chartVersion := "1", url := "a" } },
       { version := "v2" }] : List ApplicationVersion).map (·.version),
        k ∉ ([{ version := "v1", helm := some { chartName := "c", chartVersion := "2", url := "b" } },
       { version := "v0" }] : List ApplicationVersion).map (·.version) →
        findByKey (sortVersions (mergeVersions
          [{ version := "v1", helm := some { chartName := "c", chartVersion := "1", url := "a" } },
           { version := "v2" }]
          [{ version := "v1", helm := some { chartName := "c", chartVersion := "2", url := "b" } },
           { version := "v0" }])) k
          = findByKey
          [{ version := "v1", helm := some { chartName := "c", chartVersion := "1", url := "a" } },
           { version := "v2" }] k) ∧
     List.Sorted (· ≤ ·)
      ((sortVersions (mergeVersions
          [{ version := "v1", helm := some { chartName := "c", chartVersion := "1", url := "a" } },
           { version := "v2" }]
          [{ version := "v1", helm := some { chartName := "c", chartVersion := "2", url := "b" } },
           { version := "v0" }])).map (·.version))) :=
  ⟨by decide, by decide,
    merge_versions_keeps_replaces_appends_sorts _ _ (by decide) (by decide)⟩

/-! ## Reconciler: `internal/controllers/synchronizer/reconciler.go` -/

/-- Modelled from the spec: `EnsureLabels` and `EnsureAnnotations` of the
`internal/pkg/kubernetes` package are not among the sources (only their
callers are). Per the ownership-label contract they ensure every desired
key/value pair is present on the object, leaving all other entries alone. -/
def ensureA (existing desired : List (String × String)) : List (String × String) :=
  desired.foldl (fun m p => setA m p.1 p.2) existing

/-- The foreign managed-by label checked by `isSystemApplication`. -/
def SystemManagedByLabel : String := "apps.kubermatic.k8c.io/managed-by"

/-- `isSystemApplication`: an ApplicationDefinition bearing the foreign
`apps.kubermatic.k8c.io/managed-by` label is externally owned. -/
def isSystemApplication (a : ApplicationDefinition) : Bool :=
  (getA a.labels SystemManagedByLabel).isSome

/-- `updateApplicationDefinition` (the pure merge it performs inside
`PatchObject`): labels/annotations ensured, the four cluster-precedence
fields promoted from existing into desired, versions merged and sorted, and
the spec then replaced wholesale. -/
def updateApplicationDefinition (existing desired : ApplicationDefinition) :
    ApplicationDefinition :=
  let s0 := desired.spec
  let s1 : ApplicationDefinitionSpec :=
    { s0 with
      enforced := if existing.spec.enforced then true else s0.enforced
      default := if existing.spec.default then true else s0.default
      selectorDatacenters :=
        if existing.spec.selectorDatacenters ≠ none then
          existing.spec.selectorDatacenters
        else s0.selectorDatacenters
      defaultValuesBlock :=
        if existing.spec.defaultValuesBlock ≠ ""
            ∧ existing.spec.defaultValuesBlock ≠ "\x7b\x7d" then
          existing.spec.defaultValuesBlock
        else s0.defaultValuesBlock
      versions := sortVersions (mergeVersions existing.spec.versions desired.spec.versions) }
  { existing with
    labels := ensureA existing.labels desired.labels
    anns := ensureA existing.anns desired.anns
    spec := s1 }

/-- `client.Get` by name over the modelled cluster state. -/
def getAppDef (store : List ApplicationDefinition) (n : String) :
    Option ApplicationDefinition :=
  store.find? (fun a => a.name = n)

/-- `client.Patch`/update in place: replace the object carrying this name. -/
def putAppDef (store : List ApplicationDefinition) (u : ApplicationDefinition) :
    List ApplicationDefinition :=
  store.map (fun b => if b.name = u.name then u else b)

/-- Observable writes of a reconcile pass: creations and non-empty patches
(a patch whose merge diff is empty is not a write). -/
inductive ReconcileEvent
  | create (n : String)
  | patch (n : String)
deriving DecidableEq

/-- `reconcileApplicationDefinition`: create when absent, skip system
applications, otherwise patch via `updateApplicationDefinition`. -/
def reconcileApplicationDefinition (store : List ApplicationDefinition)
    (desired : ApplicationDefinition) :
    List ApplicationDefinition × List ReconcileEvent :=
  match getAppDef store desired.name with
  | none => (store ++ [desired], [.create desired.name])
  | some existing =>
    if isSystemApplication existing then (store, [])
    else
      let updated := updateApplicationDefinition existing desired
      (putAppDef store updated,
       if updated = existing then [] else [.patch desired.name])

/-- `removeManagedLabels`: delete exactly the two ownership labels. -/
def removeManagedLabels (a : ApplicationDefinition) : ApplicationDefinition :=
  { a with
    labels := delA (delA a.labels LabelManagedByApplicationCatalog)
      LabelApplicationCatalogName }

/-- The label selector used by `unmanageOrphans`: owning-catalog label equal
to the catalog name. -/
def ownedByCatalog (catalogName : String) (a : ApplicationDefinition) : Bool :=
  getA a.labels LabelApplicationCatalogName = some catalogName

/-- Go `generatedApps == nil || !generatedApps[appDef.Name]`. -/
def isOrphanTarget (generated : Option (List String)) (a : ApplicationDefinition) : Bool :=
  match generated with
  | none => true
  | some g => ¬ g.contains a.name

/-- `unmanageOrphans`: strip ownership labels from every resource owned by
this catalog whose identity is not in the produced set (all of them when
`generated` is nil, the deletion path). -/
def unmanageOrphans (store : List ApplicationDefinition) (catalogName : String)
    (generated : Option (List String)) :
    List ApplicationDefinition × List ReconcileEvent :=
  (store.map (fun a =>
      if ownedByCatalog catalogName a && isOrphanTarget generated a then
        removeManagedLabels a
      else a),
   (store.filter (fun a =>
      ownedByCatalog catalogName a && isOrphanTarget generated a
        && decide (removeManagedLabels a ≠ a))).map (fun a => .patch a.name))

/-- `handleDeletion`: unmanage every resource owned by the deleted catalog. -/
def handleDeletion (store : List ApplicationDefinition) (catalogName : String) :
    List ApplicationDefinition × List ReconcileEvent :=
  unmanageOrphans store catalogName none

/-- The per-chart loop of `reconcile` followed by the orphan pass. -/
def reconcileCharts (catalog : ApplicationCatalog) (charts : List ChartConfig)
    (store : List ApplicationDefinition) :
    List ApplicationDefinition × List ReconcileEvent :=
  let r := charts.foldl
    (fun (acc : List ApplicationDefinition × List ReconcileEvent) c =>
      let d := convertChartToApplicationDefinition catalog c
      let step := reconcileApplicationDefinition acc.1 d
      (step.1, acc.2 ++ step.2))
    (store, [])
  let orph := unmanageOrphans r.1 catalog.name (some (charts.map (·.GetAppName)))
  (orph.1, r.2 ++ orph.2)

/-- Marker for the transient requeue-after-10s outcome of `reconcile`. -/
inductive ReconcileOutcome
  | done
  | requeue
deriving DecidableEq

/-- `reconcile` on a found catalog: requeue while charts are nil with
`includeDefaults` true, otherwise normalize nil to empty and run the chart
loop plus orphan pass. -/
def reconcile (catalog : ApplicationCatalog) (store : List ApplicationDefinition) :
    List ApplicationDefinition × List ReconcileEvent × ReconcileOutcome :=
  match catalog.GetHelmCharts with
  | none =>
    if (catalog.helm.map (·.includeDefaults)).getD false then
      (store, [], .requeue)
    else
      let r := reconcileCharts catalog [] store
      (r.1, r.2, .done)
  | some charts =>
    let r := reconcileCharts catalog charts store
    (r.1, r.2, .done)

/-! ## Lemmas about label deletion and store lookup -/

theorem getA_delA_self {α : Type} (m : List (String × α)) (k : String) :
    getA (delA m k) k = none := by
  unfold getA delA
  rw [Option.map_eq_none', List.find?_eq_none]
  intro p hp
  have := (List.mem_filter.mp hp).2
  simpa using this

theorem getA_delA_ne {α : Type} (m : List (String × α)) {k k' : String} (h : k' ≠ k) :
    getA (delA m k) k' = getA m k' := by
  unfold getA delA
  induction m with
  | nil => rfl
  | cons p m ih =>
    by_cases hp : p.1 = k
    · have hp' : ¬ (p.1 = k') := fun hh => h (by rw [← hh, hp])
      rw [List.filter_cons_of_neg (by simpa using hp),
        List.find?_cons_of_neg _ (by simpa using hp')]
      exact ih
    · rw [List.filter_cons_of_pos (by simpa using hp)]
      by_cases hp' : p.1 = k'
      · rw [List.find?_cons_of_pos _ (by simpa using hp'),
          List.find?_cons_of_pos _ (by simpa using hp')]
      · rw [List.find?_cons_of_neg _ (by simpa using hp'),
          List.find?_cons_of_neg _ (by simpa using hp')]
        exact ih

theorem getAppDef_name {store : List ApplicationDefinition} {n : String}
    {a : ApplicationDefinition} (h : getAppDef store n = some a) : a.name = n := by
  unfold getAppDef at h
  simpa using List.find?_some h

theorem getAppDef_put_of_found {store : List ApplicationDefinition} {n : String}
    {u : ApplicationDefinition} (h : (getAppDef store n).isSome) (hn : u.name = n) :
    getAppDef (putAppDef store u) n = some u := by
  induction store with
  | nil => simp [getAppDef] at h
  | cons a l ih =>
    unfold getAppDef putAppDef at *
    by_cases ha : a.name = n
    · rw [List.map_cons, if_pos (by rw [ha, hn]),
        List.find?_cons_of_pos _ (by simpa using hn)]
    · rw [List.map_cons, if_neg (by rw [hn]; exact ha),
        List.find?_cons_of_neg _ (by simpa using ha)]
      rw [List.find?_cons_of_neg _ (by simpa using ha)] at h
      exact ih h

/-- C6 — when the reconciler updates an existing, non-system-managed
ApplicationDefinition, the stored result is `updateApplicationDefinition
existing desired`, in which: an enforced flag currently true stays true, a
default flag currently true stays true, a currently-set datacenter selector
is preserved verbatim, and the current default-values block is preserved
verbatim unless it is `""` or the sentinel empty object, in which case the
catalog-declared value is applied (so a user-edited block survives
reconciliation). -/
theorem update_preserves_cluster_state
    (store : List ApplicationDefinition) (desired existing : ApplicationDefinition)
    (hfound : getAppDef store desired.name = some existing)
    (hsys : isSystemApplication existing = false) :
    getAppDef (reconcileApplicationDefinition store desired).1 desired.name
      = some (updateApplicationDefinition existing desired) ∧
    (existing.spec.enforced = true →
      (updateApplicationDefinition existing desired).spec.enforced = true) ∧
    (existing.spec.default = true →
      (updateApplicationDefinition existing desired).spec.default = true) ∧
    (∀ dcs, existing.spec.selectorDatacenters = some dcs →
      (updateApplicationDefinition existing desired).spec.selectorDatacenters = some dcs) ∧
    (existing.spec.defaultValuesBlock ≠ "" →
     existing.spec.defaultValuesBlock ≠ "\x7b\x7d" →
      (updateApplicationDefinition existing desired).spec.defaultValuesBlock
        = existing.spec.defaultValuesBlock) ∧
    ((existing.spec.defaultValuesBlock = ""
        ∨ existing.spec.defaultValuesBlock = "\x7b\x7d") →
      (updateApplicationDefinition existing desired).spec.defaultValuesBlock
        = desired.spec.defaultValuesBlock) := by
  refine ⟨?_, ?_, ?_, ?_, ?_, ?_⟩
  · have hred : (reconcileApplicationDefinition store desired).1
        = putAppDef store (updateApplicationDefinition existing desired) := by
      unfold reconcileApplicationDefinition
      simp [hfound, hsys]
    rw [hred]
    refine getAppDef_put_of_found (by rw [hfound]; rfl) ?_
    have := getAppDef_name hfound
    simpa [updateApplicationDefinition] using this
  · intro h
    simp [updateApplicationDefinition, h]
  · intro h
    simp [updateApplicationDefinition, h]
  · intro dcs h
    simp [updateApplicationDefinition, h]
  · intro h1 h2
    simp [updateApplicationDefinition, h1, h2]
  · intro h
    rcases h with h | h <;> simp [updateApplicationDefinition, h]

/-- Concrete inputs for the C6 witness: a user-customized existing resource
and a fresh desired conversion. -/
def w6existing : ApplicationDefinition :=
  { name := "nginx"
    labels := [(LabelManagedByApplicationCatalog, "true"),
               (LabelApplicationCatalogName, "c1")]
    anns := []
    spec := { defaultValuesBlock := "replicas: 5"
              enforced := true
              default := true
              selectorDatacenters := some ["dc1"]
              versions := [{ version := "v1" }] } }

/-- Desired state for the C6 witness. -/
def w6desired : ApplicationDefinition :=
  { name := "nginx"
    labels := [(LabelManagedByApplicationCatalog, "true"),
               (LabelApplicationCatalogName, "c1")]
    anns := []
    spec := { defaultValuesBlock := "replicas: 1"
              versions := [{ version := "v1" }, { version := "v2" }] } }

/-- C6 witness: the preservation theorem applied at a concrete store. -/
theorem update_preserves_cluster_state_witness :
    getAppDef [w6existing] w6desired.name = some w6existing ∧
    isSystemApplication w6existing = false ∧
    (getAppDef (reconcileApplicationDefinition [w6existing] w6desired).1 w6desired.name
      = some (updateApplicationDefinition w6existing w6desired) ∧
    (w6existing.spec.enforced = true →
      (updateApplicationDefinition w6existing w6desired).spec.enforced = true) ∧
    (w6existing.spec.default = true →
      (updateApplicationDefinition w6existing w6desired).spec.default = true) ∧
    (∀ dcs, w6existing.spec.selectorDatacenters = some dcs →
      (updateApplicationDefinition w6existing w6desired).spec.selectorDatacenters = some dcs) ∧
    (w6existing.spec.defaultValuesBlock ≠ "" →
     w6existing.spec.defaultValuesBlock ≠ "\x7b\x7d" →
      (updateApplicationDefinition w6existing w6desired).spec.defaultValuesBlock
        = w6existing.spec.defaultValuesBlock) ∧
    ((w6existing.spec.defaultValuesBlock = ""
        ∨ w6existing.spec.defaultValuesBlock = "\x7b\x7d") →
      (updateApplicationDefinition w6existing w6desired).spec.defaultValuesBlock
        = w6desired.spec.defaultValuesBlock)) :=
  ⟨by decide, by decide,
    update_preserves_cluster_state [w6existing] w6desired w6existing
      (by decide) (by decide)⟩

/-- C7 — unmanaging orphans patches (never deletes): the store keeps its
length; every resource owned by the catalog whose identity is outside the
produced set (or every owned resource when the catalog was deleted and the
set is nil) loses exactly the two ownership labels, with its name, spec,
annotations and every other label untouched; every other resource is left
exactly as it was. -/
theorem unmanage_orphans_strips_only_labels
    (store : List ApplicationDefinition) (catalogName : String)
    (generated : Option (List String)) :
    (unmanageOrphans store catalogName generated).1.length = store.length ∧
    (∀ (i : Nat) (a : ApplicationDefinition), store[i]? = some a →
      (ownedByCatalog catalogName a && isOrphanTarget generated a) = true →
        (unmanageOrphans store catalogName generated).1[i]? = some (removeManagedLabels a) ∧
        (removeManagedLabels a).name = a.name ∧
        (removeManagedLabels a).spec = a.spec ∧
        (removeManagedLabels a).anns = a.anns ∧
        getA (removeManagedLabels a).labels LabelManagedByApplicationCatalog = none ∧
        getA (removeManagedLabels a).labels LabelApplicationCatalogName = none ∧
        (∀ k, k ≠ LabelManagedByApplicationCatalog → k ≠ LabelApplicationCatalogName →
          getA (removeManagedLabels a).labels k = getA a.labels k)) ∧
    (∀ (i : Nat) (a : ApplicationDefinition), store[i]? = some a →
      (ownedByCatalog catalogName a && isOrphanTarget generated a) = false →
        (unmanageOrphans store catalogName generated).1[i]? = some a) ∧
    (∀ (i : Nat) (a : ApplicationDefinition), store[i]? = some a → ownedByCatalog catalogName a = true →
      (handleDeletion store catalogName).1[i]? = some (removeManagedLabels a)) := by
  refine ⟨by simp [unmanageOrphans], ?_, ?_, ?_⟩
  · intro i a hia hcond
    refine ⟨?_, rfl, rfl, rfl, ?_, ?_, ?_⟩
    · simp only [unmanageOrphans, List.getElem?_map, hia, Option.map_some']
      rw [if_pos (by simpa using hcond)]
    · show getA (delA (delA a.labels LabelManagedByApplicationCatalog)
        LabelApplicationCatalogName) LabelManagedByApplicationCatalog = none
      rw [getA_delA_ne _ (by decide)]
      exact getA_delA_self _ _
    · exact getA_delA_self _ _
    · intro k hk1 hk2
      show getA (delA (delA a.labels LabelManagedByApplicationCatalog)
        LabelApplicationCatalogName) k = getA a.labels k
      rw [getA_delA_ne _ hk2, getA_delA_ne _ hk1]
  · intro i a hia hcond
    simp only [unmanageOrphans, List.getElem?_map, hia, Option.map_some']
    rw [if_neg (by simp [hcond])]
  · intro i a hia hown
    simp only [handleDeletion, unmanageOrphans, List.getElem?_map, hia, Option.map_some']
    rw [if_pos (by simp [hown, isOrphanTarget])]

/-- Concrete orphan for the C7 witness: owned by catalog `c1`, identity not
in the produced set, with an extra label and annotations. -/
def w7orphan : ApplicationDefinition :=
  { name := "old-app"
    labels := [(LabelManagedByApplicationCatalog, "true"),
               (LabelApplicationCatalogName, "c1"),
               ("team", "db")]
    anns := [("note", "keep")]
    spec := { defaultValuesBlock := "replicas: 2" } }

/-- C7 witness: the orphan theorem applied to a one-element store at index 0,
with the frame conditions evaluated at the extra label `team`. -/
theorem unmanage_orphans_witness :
    ([w7orphan][0]? = some w7orphan) ∧
    ((ownedByCatalog "c1" w7orphan && isOrphanTarget (some ["new-app"]) w7orphan) = true) ∧
    (unmanageOrphans [w7orphan] "c1" (some ["new-app"])).1[0]?
      = some (removeManagedLabels w7orphan) ∧
    (removeManagedLabels w7orphan).spec = w7orphan.spec ∧
    getA (removeManagedLabels w7orphan).labels LabelManagedByApplicationCatalog = none ∧
    getA (removeManagedLabels w7orphan).labels LabelApplicationCatalogName = none ∧
    getA (removeManagedLabels w7orphan).labels "team" = getA w7orphan.labels "team" := by
  have h := (unmanage_orphans_strips_only_labels [w7orphan] "c1" (some ["new-app"])).2.1
    0 w7orphan (by decide) (by decide)
  exact ⟨by decide, by decide, h.1, h.2.2.1, h.2.2.2.2.1, h.2.2.2.2.2.1,
    h.2.2.2.2.2.2 "team" (by decide) (by decide)⟩

/-! ## Defaulting engine: `internal/pkg/defaulting`

The implementation file of this package is not among the sources; only its
unit tests, its callers (the mutation webhook and `pkg/charts`) and the
repository's documentation are. The definitions below are therefore
modelled, as stated in each doc comment. -/

/-- Modelled from the spec: the static built-in default chart set of the
missing `internal/pkg/defaulting` implementation (`GetDefaultCharts`), a
sorted-by-name, duplicate-free list of chart entries compiled into the
system. The repository's tests name `argo-cd`, `cert-manager` and
`ingress-nginx` among its members; this representative table carries those
three with plausible content. -/
def GetDefaultCharts : List ChartConfig :=
  [{ chartName := "argo-cd"
     metadata := some { appName := "argo-cd", displayName := "Argo CD"
                        description := "Declarative GitOps CD"
                        logoFormat := "svg+xml" }
     chartVersions := [{ chartVersion := "7.7.10", appVersion := "v2.13.2" }] },
   { chartName := "cert-manager"
     metadata := some { appName := "cert-manager", displayName := "cert-manager"
                        description := "Certificate management"
                        logoFormat := "png" }
     defaultValuesBlock := "crds:\n  enabled: true"
     chartVersions := [{ chartVersion := "v1.16.2", appVersion := "v1.16.2" }] },
   { chartName := "ingress-nginx"
     metadata := some { appName := "ingress-nginx", displayName := "Nginx Ingress"
                        description := "Ingress controller"
                        logoFormat := "svg+xml" }
     chartVersions := [{ chartVersion := "4.12.0", appVersion := "v1.12.0" }] }]

/-- The names of the built-in defaults (`GetDefaultChartNames`). -/
def GetDefaultChartNames : List String := GetDefaultCharts.map (·.chartName)

/-- ASCII whitespace, as trimmed from annotation identifiers. -/
def isSpaceChar (c : Char) : Bool :=
  c = ' ' || c = '\t' || c = '\n' || c = '\r'

/-- Trim leading and trailing whitespace (`strings.TrimSpace`). -/
def trimString (s : String) : String :=
  String.mk (((s.toList.dropWhile isSpaceChar).reverse.dropWhile isSpaceChar).reverse)

/-- Split a character list at commas (`strings.Split(s, ",")`). -/
def splitCommaAux (cur : List Char) : List Char → List String
  | [] => [String.mk cur.reverse]
  | c :: rest =>
    if c = ',' then String.mk cur.reverse :: splitCommaAux [] rest
    else splitCommaAux (c :: cur) rest

/-- Split a string at commas (`strings.Split(s, ",")`). -/
def splitComma (s : String) : List String := splitCommaAux [] s.toList

/-- Modelled from the spec: the comma-split, whitespace-trimmed parse of the
include annotation used by the missing defaulting implementation; empty
identifiers left by stray commas are dropped. -/
def parseIncludeList (ann : String) : List String :=
  ((splitComma ann).map trimString).filter (fun n => n ≠ "")

/-- Modelled from the spec: `ValidateIncludeAnnotation` of the missing
defaulting package returns the identifiers of the annotation that name no
built-in default; an empty annotation means no filter and yields none. -/
def ValidateIncludeAnn (ann : String) : List String :=
  if ann = "" then []
  else (parseIncludeList ann).filter (fun n => !(GetDefaultChartNames.contains n))

/-- Ordering of chart entries by chart name, used for the deterministic
sorted output of the defaulting engine. -/
def chartLE (a b : ChartConfig) : Prop := a.chartName ≤ b.chartName

instance : DecidableRel chartLE := fun a b =>
  decidable_of_iff (a.chartName.toList ≤ b.chartName.toList) String.le_iff_toList_le.symm

instance : IsTotal ChartConfig chartLE := ⟨fun a b => le_total a.chartName b.chartName⟩

instance : IsTrans ChartConfig chartLE := ⟨fun _ _ _ h h' => le_trans h h'⟩

/-- Modelled from the spec: `sortCharts` of the missing defaulting package
(sort by chart name). -/
def sortCharts (l : List ChartConfig) : List ChartConfig := l.insertionSort chartLE

/-- Modelled from the spec: the annotation filter of the missing defaulting
implementation keeps the defaults named by the include list and silently
drops unknown identifiers. -/
def filterDefaultsByName (charts : List ChartConfig) (includeList : List String) :
    List ChartConfig :=
  charts.filter (fun c => includeList.contains c.chartName)

/-- Modelled from the spec: the merge of the missing defaulting
implementation for `includeDefaults = true` with a populated user list —
start from the (filtered, sorted) defaults, replace each default whose
identity name collides with a user entry by the user's entire struct,
append the non-colliding user entries, and sort the result by name. -/
def mergeCharts (userCharts defaults : List ChartConfig) : List ChartConfig :=
  sortCharts
    ((defaults.map (fun d =>
        match userCharts.find? (fun u => u.GetAppName = d.GetAppName) with
        | some u => u
        | none => d))
      ++ userCharts.filter
          (fun u => !(defaults.any (fun d => d.GetAppName = u.GetAppName))))

/-- Modelled from the spec: `DefaultApplicationCatalog` of the missing
`internal/pkg/defaulting` implementation. An absent helm block is
initialized and injected with the full sorted built-in default set (the
spec's one-time legacy row and its scenario `c1`, the e2e webhook test
`TestWebhookNilChartsInjectsDefaults`, and the mutation webhook's
unconditional dereference of `Spec.Helm` after defaulting). With the helm
block present, the `includeDefaults=false` branch follows the repository's
own unit tests (`applicationcatalog_test.go`: a present-but-nil chart list
stays uninjected) and its user documentation ("when includeDefaults is
false or omitted, the webhook leaves your catalog completely unchanged");
everything else follows the spec's behavior table, which the tests
confirm. -/
def DefaultApplicationCatalog (c : ApplicationCatalog) : ApplicationCatalog :=
  match c.helm with
  | none =>
    { c with helm := some { repositorySettings := none
                            charts := some (sortCharts GetDefaultCharts)
                            includeDefaults := false } }
  | some h =>
    if ¬ h.includeDefaults then c
    else
      let ann := (getA c.anns IncludeAnnKey).getD ""
      let defaults := sortCharts
        (if ann ≠ "" then filterDefaultsByName GetDefaultCharts (parseIncludeList ann)
         else GetDefaultCharts)
      match h.charts with
      | none => { c with helm := some { h with charts := some defaults } }
      | some users =>
        { c with helm := some { h with charts := some (mergeCharts users defaults) } }

theorem find_chart_eq_some_of_mem {l : List ChartConfig} {u : ChartConfig}
    (hn : (l.map (·.GetAppName)).Nodup) (hu : u ∈ l) :
    l.find? (fun x => x.GetAppName = u.GetAppName) = some u := by
  induction l with
  | nil => exact absurd hu (List.not_mem_nil u)
  | cons x xs ih =>
    rcases List.mem_cons.mp hu with rfl | hu'
    · exact List.find?_cons_of_pos _ (by simp)
    · have hxk : ¬ (x.GetAppName = u.GetAppName) := by
        intro hh
        rw [List.map_cons] at hn
        exact (List.nodup_cons.mp hn).1 (hh ▸ List.mem_map.mpr ⟨u, hu', rfl⟩)
      rw [List.find?_cons_of_neg _ (by simpa using hxk)]
      exact ih (by rw [List.map_cons] at hn; exact (List.nodup_cons.mp hn).2) hu'

/-- C3 — for a catalog with `includeDefaults=true`, a populated chart list
and no filter annotation, the defaulting engine produces exactly the merge
of the name-sorted built-in defaults with the user's entries: colliding
defaults are replaced by the user's entire struct, non-colliding user
entries are appended, the result is sorted by name, and its entry count is
the built-in default count plus the count of user entries whose identity
does not collide with a default identity. User entry identities are assumed
pairwise distinct, as the admission validator enforces. -/
theorem defaulting_merges_populated_list
    (c : ApplicationCatalog) (h : HelmSpec) (users : List ChartConfig)
    (hh : c.helm = some h) (hid : h.includeDefaults = true)
    (hc : h.charts = some users) (_hpop : users ≠ [])
    (hann : getA c.anns IncludeAnnKey = none ∨ getA c.anns IncludeAnnKey = some "")
    (hnod : (users.map (·.GetAppName)).Nodup) :
    (DefaultApplicationCatalog c).helm.bind (·.charts)
      = some (mergeCharts users GetDefaultCharts) ∧
    (mergeCharts users GetDefaultCharts).length
      = GetDefaultCharts.length
        + (users.filter
            (fun u => !(GetDefaultCharts.any (fun d => d.GetAppName = u.GetAppName)))).length ∧
    (∀ u ∈ users, u ∈ mergeCharts users GetDefaultCharts) ∧
    (∀ d ∈ GetDefaultCharts,
      (users.any (fun u => u.GetAppName = d.GetAppName)) = false →
        d ∈ mergeCharts users GetDefaultCharts) ∧
    List.Sorted chartLE (mergeCharts users GetDefaultCharts) := by
  have hsorted : sortCharts GetDefaultCharts = GetDefaultCharts := by decide
  refine ⟨?_, ?_, ?_, ?_, List.sorted_insertionSort chartLE _⟩
  · unfold DefaultApplicationCatalog
    rcases hann with h0 | h0 <;>
      simp [hh, hid, hc, h0, hsorted]
  · unfold mergeCharts sortCharts
    rw [(List.perm_insertionSort chartLE _).length_eq]
    simp
  · intro u hu
    unfold mergeCharts
    apply (List.perm_insertionSort chartLE _).mem_iff.mpr
    by_cases hcol : GetDefaultCharts.any (fun d => d.GetAppName = u.GetAppName) = true
    · obtain ⟨d, hd, hdu⟩ := List.any_eq_true.mp hcol
      simp only [decide_eq_true_eq] at hdu
      refine List.mem_append_left _ (List.mem_map.mpr ⟨d, hd, ?_⟩)
      simp only [hdu]
      rw [find_chart_eq_some_of_mem hnod hu]
    · refine List.mem_append_right _ (List.mem_filter.mpr ⟨hu, ?_⟩)
      simp only [Bool.not_eq_true] at hcol
      simp [hcol]
  · intro d hd hno
    unfold mergeCharts
    apply (List.perm_insertionSort chartLE _).mem_iff.mpr
    refine List.mem_append_left _ (List.mem_map.mpr ⟨d, hd, ?_⟩)
    have : users.find? (fun x => x.GetAppName = d.GetAppName) = none := by
      rw [List.find?_eq_none]
      intro u hu hud
      simp only [decide_eq_true_eq] at hud
      have := List.any_eq_false.mp hno u hu
      simp [hud] at this
    rw [this]

/-- Concrete catalog for the C3 witness: one custom chart and one override
of the built-in `ingress-nginx` entry. -/
def w3users : List ChartConfig :=
  [{ chartName := "my-app" },
   { chartName := "ingress-nginx"
     repositorySettings := some { baseURL := "https://my-registry.example/charts" } }]

/-- Concrete catalog for the C3 witness. -/
def w3catalog : ApplicationCatalog :=
  { name := "test-catalog"
    anns := []
    helm := some { charts := some w3users, includeDefaults := true } }

/-- C3 witness: the merge theorem applied to the concrete catalog. -/
theorem defaulting_merges_populated_list_witness :
    (w3catalog.helm = some { charts := some w3users, includeDefaults := true }) ∧
    ((DefaultApplicationCatalog w3catalog).helm.bind (·.charts)
      = some (mergeCharts w3users GetDefaultCharts) ∧
    (mergeCharts w3users GetDefaultCharts).length
      = GetDefaultCharts.length
        + (w3users.filter
            (fun u => !(GetDefaultCharts.any (fun d => d.GetAppName = u.GetAppName)))).length ∧
    (∀ u ∈ w3users, u ∈ mergeCharts w3users GetDefaultCharts) ∧
    (∀ d ∈ GetDefaultCharts,
      (w3users.any (fun u => u.GetAppName = d.GetAppName)) = false →
        d ∈ mergeCharts w3users GetDefaultCharts) ∧
    List.Sorted chartLE (mergeCharts w3users GetDefaultCharts)) :=
  ⟨rfl,
   defaulting_merges_populated_list w3catalog
     { charts := some w3users, includeDefaults := true } w3users
     rfl rfl rfl (by decide) (Or.inl rfl) (by decide)⟩

/-- The concrete C4 input: `includeDefaults` omitted (false) with an absent
(nil) chart list — the legacy state the claim says receives a one-time
injection. -/
def w4catalog : ApplicationCatalog :=
  { name := "legacy-catalog"
    anns := []
    helm := some { charts := none, includeDefaults := false } }

/-- A catalog whose helm block is entirely absent. -/
def w4catalogNil : ApplicationCatalog :=
  { name := "legacy-nil-catalog"
    anns := []
    helm := none }

/-- C4 counterexample — on the catalog with a present helm block,
`includeDefaults=false` and a nil chart list, the defaulting engine (as
fixed by the repository's own unit tests and documentation) leaves the
chart list nil instead of injecting the non-empty built-in default set, so
the claimed one-time legacy injection does not happen for a
present-but-nil entry list. -/
theorem defaulting_no_legacy_injection_counterexample :
    (DefaultApplicationCatalog w4catalog).helm.bind (·.charts) = none ∧
    GetDefaultCharts ≠ [] ∧
    DefaultApplicationCatalog w4catalog = w4catalog := by
  refine ⟨by decide, by decide, by decide⟩

/-- C4 amended — the one-time legacy injection fires exactly when the helm
block itself is absent: such a catalog gets its helm block initialized with
the full sorted (non-empty) built-in default set and `includeDefaults`
remaining false; whereas with the helm block present and `includeDefaults`
false or omitted the defaulting engine is the identity in every entry-list
state (nil, empty and populated), never injecting any default. -/
theorem defaulting_legacy_injection_characterization (c : ApplicationCatalog) :
    ((∃ hs, c.helm = some hs ∧ hs.includeDefaults = false) →
      DefaultApplicationCatalog c = c)
    ∧ (c.helm = none →
      DefaultApplicationCatalog c =
        { c with helm := some { repositorySettings := none
                                charts := some (sortCharts GetDefaultCharts)
                                includeDefaults := false } })
    ∧ sortCharts GetDefaultCharts ≠ [] := by
  refine ⟨?_, ?_, by decide⟩
  · rintro ⟨hs, hh, hfalse⟩
    unfold DefaultApplicationCatalog
    rw [hh]
    simp [hfalse]
  · intro h
    unfold DefaultApplicationCatalog
    rw [h]

/-- C4 amended witness: the characterization applied at a concrete
helm-present legacy catalog (identity) and at a concrete helm-absent
catalog (injection of the full built-in set). -/
theorem defaulting_legacy_characterization_witness :
    DefaultApplicationCatalog w4catalog = w4catalog
    ∧ DefaultApplicationCatalog w4catalogNil =
        { w4catalogNil with helm := some { repositorySettings := none
                                           charts := some (sortCharts GetDefaultCharts)
                                           includeDefaults := false } } :=
  ⟨(defaulting_legacy_injection_characterization w4catalog).1
      ⟨{ charts := none, includeDefaults := false }, rfl, rfl⟩,
   (defaulting_legacy_injection_characterization w4catalogNil).2.1 rfl⟩

/-! ## Validation webhook:
`internal/pkg/admission/applicationcatalog/validation/validation.go` -/

/-- `ConflictInfo` from `validation.go`. -/
structure ConflictInfo where
  appDefName : String
  ownerCatalog : String
deriving DecidableEq

/-- The owner text reported for an intra-catalog duplicate. -/
def duplicateOwnerMsg (existingChart newChart : String) : String :=
  "this catalog (duplicate: charts \"" ++ existingChart ++ "\" and \""
    ++ newChart ++ "\" resolve to same appName)"

/-- The intra-catalog duplicate loop of `detectConflicts`: walk the charts
carrying the `appNames` map (appName to first chart name) and the conflicts
collected so far. -/
def intraScanAux (m : List (String × String)) (confl : List ConflictInfo) :
    List ChartConfig → List (String × String) × List ConflictInfo
  | [] => (m, confl)
  | chart :: rest =>
    match getA m chart.GetAppName with
    | some existingChart =>
      intraScanAux m
        (confl ++ [{ appDefName := chart.GetAppName
                     ownerCatalog := duplicateOwnerMsg existingChart chart.chartName }])
        rest
    | none =>
      intraScanAux (m ++ [(chart.GetAppName, chart.chartName)]) confl rest

/-- The `appNames` map and duplicate conflicts of `detectConflicts`. -/
def intraCatalogScan (charts : List ChartConfig) :
    List (String × String) × List ConflictInfo :=
  intraScanAux [] [] charts

/-- The cross-catalog loop of `detectConflicts`: for each produced app name,
look up the (last-indexed, mirroring the Go map build) managed
ApplicationDefinition of that name and report a conflict when its owner
label is non-empty and names a different catalog. -/
def crossCheckName (catalogName : String) (managed : List ApplicationDefinition)
    (appName : String) : Option ConflictInfo :=
  match (managed.filter (fun a => a.name = appName)).getLast? with
  | none => none
  | some appDef =>
    let owner := (getA appDef.labels LabelApplicationCatalogName).getD ""
    if owner = "" ∨ owner = catalogName then none
    else some { appDefName := appName, ownerCatalog := owner }

/-- The cross-catalog loop over the produced app names. -/
def crossCatalogScan (catalogName : String) (appNames : List (String × String))
    (managed : List ApplicationDefinition) : List ConflictInfo :=
  (appNames.map Prod.fst).filterMap (crossCheckName catalogName managed)

/-- `detectConflicts`: nothing to check on an empty chart list; otherwise
intra-catalog duplicates followed by cross-catalog conflicts against the
ApplicationDefinitions listed under the managed-by selector. -/
def detectConflicts (catalog : ApplicationCatalog)
    (store : List ApplicationDefinition) : List ConflictInfo :=
  let charts := (catalog.GetHelmCharts).getD []
  if charts.length = 0 then []
  else
    let scan := intraCatalogScan charts
    let managed := store.filter
      (fun a => getA a.labels LabelManagedByApplicationCatalog = some "true")
    scan.2 ++ crossCatalogScan catalog.name scan.1 managed

/-- The verdict of an admission handler (decode failures are `errored`). -/
inductive AdmissionVerdict
  | allowed (msg : String)
  | denied (msg : String)
  | errored
deriving DecidableEq

/-- Whether a verdict is a denial. -/
def AdmissionVerdict.isDenied : AdmissionVerdict → Bool
  | .denied _ => true
  | _ => false

/-- The denial message for invalid include-annotation identifiers. -/
def invalidAnnMsg (invalid valid : List String) : String :=
  "invalid chart names in annotation defaultcatalog.k8c.io/include: "
    ++ toString invalid ++ ". Valid names are: " ++ toString valid

/-- `formatConflictMessage`: one line per conflict, then the resolution
hints. -/
def formatConflictMessage (conflicts : List ConflictInfo) : String :=
  if conflicts.length = 0 then ""
  else
    "ApplicationCatalog conflicts detected:\n"
      ++ String.join (conflicts.map (fun c =>
          "  - ApplicationDefinition \"" ++ c.appDefName
            ++ "\" is already managed by catalog \"" ++ c.ownerCatalog ++ "\"\n"))
      ++ "\nTo resolve this conflict, either:\n"
      ++ "  1. Remove the conflicting chart from this catalog\n"
      ++ "  2. Use a different appName in metadata.appName for the chart\n"
      ++ "  3. Delete the other catalog or remove the chart from it first"

/-- `handleValidation`: decode, the strict include-annotation check when
`includeDefaults` is set, then conflict detection. -/
def handleValidation (decoded : Option ApplicationCatalog)
    (store : List ApplicationDefinition) : AdmissionVerdict :=
  match decoded with
  | none => .errored
  | some catalog =>
    if (catalog.helm.map (·.includeDefaults)).getD false
        ∧ ValidateIncludeAnn ((getA catalog.anns IncludeAnnKey).getD "") ≠ [] then
      .denied (invalidAnnMsg
        (ValidateIncludeAnn ((getA catalog.anns IncludeAnnKey).getD ""))
        GetDefaultChartNames)
    else
      let conflicts := detectConflicts catalog store
      if conflicts.length = 0 then .allowed "no conflicts detected"
      else .denied (formatConflictMessage conflicts)

/-- Admission operations (`admissionv1.Operation`). -/
inductive AdmissionOp
  | create
  | update
  | delete
  | connect
deriving DecidableEq

/-- Printable operation name, standing for Go's `req.Operation` string. -/
def opName : AdmissionOp → String
  | .create => "CREATE"
  | .update => "UPDATE"
  | .delete => "DELETE"
  | .connect => "CONNECT"

/-- `Handle` of the validation webhook: validate on create/update, allow
everything else without decoding or checking anything. -/
def validationHandle (op : AdmissionOp) (decoded : Option ApplicationCatalog)
    (store : List ApplicationDefinition) : AdmissionVerdict :=
  match op with
  | .create => handleValidation decoded store
  | .update => handleValidation decoded store
  | .delete => .allowed "delete operations do not require validation"
  | .connect => .allowed ("\"" ++ opName .connect ++ "\" operations do not require validation")

/-! ## Mutation webhook: the `mutation` package (`Handle`/`handleMutation`) -/

/-- The verdict of the mutating handler: a patch response carrying the
mutated object, a plain allow, or a decode error. -/
inductive MutationVerdict
  | patched (mutated : ApplicationCatalog)
  | allowed (msg : String)
  | errored
deriving DecidableEq

/-- `handleMutation`: decode, apply `DefaultApplicationCatalog`, respond
with the patch to the mutated object. -/
def handleMutation (decoded : Option ApplicationCatalog) : MutationVerdict :=
  match decoded with
  | none => .errored
  | some catalog => .patched (DefaultApplicationCatalog catalog)

/-- `Handle` of the mutation webhook: mutate on create/update, allow
everything else without decoding or mutating. -/
def mutationHandle (op : AdmissionOp) (decoded : Option ApplicationCatalog) :
    MutationVerdict :=
  match op with
  | .create => handleMutation decoded
  | .update => handleMutation decoded
  | op => .allowed ("\"" ++ opName op ++ "\" operations do not require mutation")

/-- C10 — for every admission operation other than Create and Update, both
webhooks allow without looking at the request: the verdict is an allow and
is independent of the (possibly undecodable) payload and of the downstream
state, so no decoding, annotation check, conflict check or mutation takes
place. -/
theorem non_write_ops_allowed (op : AdmissionOp)
    (hop1 : op ≠ .create) (hop2 : op ≠ .update) :
    (∀ decoded store, validationHandle op decoded store = validationHandle op none []) ∧
    (∃ m, validationHandle op none [] = .allowed m) ∧
    (∀ decoded, mutationHandle op decoded = mutationHandle op none) ∧
    (∃ m, mutationHandle op none = .allowed m) := by
  cases op with
  | create => exact absurd rfl hop1
  | update => exact absurd rfl hop2
  | delete =>
    exact ⟨fun _ _ => rfl, ⟨_, rfl⟩, fun _ => rfl, ⟨_, rfl⟩⟩
  | connect =>
    exact ⟨fun _ _ => rfl, ⟨_, rfl⟩, fun _ => rfl, ⟨_, rfl⟩⟩

/-- C10 witness: the Delete operation, with an arbitrary payload and a
non-empty downstream store, evaluated concretely. -/
theorem non_write_ops_allowed_witness :
    (AdmissionOp.delete ≠ AdmissionOp.create) ∧
    (AdmissionOp.delete ≠ AdmissionOp.update) ∧
    validationHandle .delete (some { name := "c" }) [w7orphan]
      = validationHandle .delete none [] ∧
    validationHandle .delete none []
      = .allowed "delete operations do not require validation" ∧
    mutationHandle .delete (some { name := "c" }) = mutationHandle .delete none ∧
    mutationHandle .delete none
      = .allowed "\"DELETE\" operations do not require mutation" :=
  ⟨by decide, by decide,
   (non_write_ops_allowed .delete (by decide) (by decide)).1 (some { name := "c" }) [w7orphan],
   rfl,
   (non_write_ops_allowed .delete (by decide) (by decide)).2.2.1 (some { name := "c" }),
   rfl⟩

/-! ## Lemmas about the conflict scans -/

theorem getA_append_single_of_some {α : Type} {m : List (String × α)} {n : String}
    {w : α} (h : getA m n = some w) (k : String) (v : α) :
    getA (m ++ [(k, v)]) n = some w := by
  unfold getA at h ⊢
  rw [List.find?_append]
  cases hf : m.find? (fun p => p.1 = n) with
  | none => rw [hf] at h; simp at h
  | some q => rw [hf] at h; simpa using h

theorem getA_append_single_of_none {α : Type} {m : List (String × α)} {n : String}
    (h : getA m n = none) (k : String) (v : α) :
    getA (m ++ [(k, v)]) n = if n = k then some v else none := by
  unfold getA at h ⊢
  rw [Option.map_eq_none'] at h
  rw [List.find?_append, h, Option.none_or]
  by_cases hk : n = k
  · rw [List.find?_cons_of_pos _ (by simp [hk])]
    simp [hk]
  · rw [List.find?_cons_of_neg _ (by simp; exact fun hh => hk hh.symm)]
    simp [hk]

theorem getA_some_mem_keys {α : Type} {m : List (String × α)} {k : String} {v : α}
    (h : getA m k = some v) : k ∈ m.map Prod.fst :=
  List.mem_map.mpr ⟨(k, v), getA_mem h, rfl⟩

theorem intraScanAux_len :
    ∀ (charts : List ChartConfig) (m : List (String × String)) (c : List ConflictInfo),
      c.length ≤ (intraScanAux m c charts).2.length := by
  intro charts
  induction charts with
  | nil => intro m c; exact le_refl _
  | cons ch rest ih =>
    intro m c
    unfold intraScanAux
    cases hg : getA m ch.GetAppName with
    | some e =>
      calc c.length
          ≤ (c ++ [(⟨ch.GetAppName, duplicateOwnerMsg e ch.chartName⟩ : ConflictInfo)]).length := by
            simp
        _ ≤ _ := ih _ _
    | none => exact ih _ _

theorem intraScanAux_no_dup :
    ∀ (charts : List ChartConfig) (m : List (String × String)) (c : List ConflictInfo),
      ((intraScanAux m c charts).2 = c)
        ↔ ((charts.map (·.GetAppName)).Nodup
            ∧ ∀ ch ∈ charts, getA m ch.GetAppName = none) := by
  intro charts
  induction charts with
  | nil => intro m c; simp [intraScanAux]
  | cons ch rest ih =>
    intro m c
    unfold intraScanAux
    cases hg : getA m ch.GetAppName with
    | some e =>
      constructor
      · intro h
        have hlen := intraScanAux_len rest m
          (c ++ [⟨ch.GetAppName, duplicateOwnerMsg e ch.chartName⟩])
        rw [h] at hlen
        simp at hlen
      · rintro ⟨_, hall⟩
        have := hall ch (List.mem_cons_self ch rest)
        rw [hg] at this
        exact Option.noConfusion this
    | none =>
      rw [ih]
      constructor
      · rintro ⟨hnd, hall⟩
        have hnotin : ch.GetAppName ∉ rest.map (·.GetAppName) := by
          intro hmem
          obtain ⟨ch', hch', hcheq⟩ := List.mem_map.mp hmem
          have h' := hall ch' hch'
          by_cases hgm : (getA m ch'.GetAppName).isSome
          · obtain ⟨w, hw⟩ := Option.isSome_iff_exists.mp hgm
            rw [getA_append_single_of_some hw] at h'
            exact Option.noConfusion h'
          · have hnone : getA m ch'.GetAppName = none := by
              cases hx : getA m ch'.GetAppName with
              | none => rfl
              | some w => rw [hx] at hgm; simp at hgm
            rw [getA_append_single_of_none hnone, if_pos hcheq] at h'
            exact Option.noConfusion h'
        refine ⟨List.nodup_cons.mpr ⟨hnotin, hnd⟩, ?_⟩
        intro ch' hch'
        rcases List.mem_cons.mp hch' with rfl | hch''
        · exact hg
        · have h' := hall ch' hch''
          cases hx : getA m ch'.GetAppName with
          | none => rfl
          | some w =>
            rw [getA_append_single_of_some hx] at h'
            exact Option.noConfusion h'
      · rintro ⟨hnd, hall⟩
        obtain ⟨hnotin, hnd'⟩ := List.nodup_cons.mp hnd
        refine ⟨hnd', ?_⟩
        intro ch' hch'
        have hne : ¬ (ch'.GetAppName = ch.GetAppName) := by
          intro hh
          exact hnotin (List.mem_map.mpr ⟨ch', hch', hh⟩)
        rw [getA_append_single_of_none (hall ch' (List.mem_cons_of_mem _ hch')),
          if_neg hne]

theorem intraScanAux_keys :
    ∀ (charts : List ChartConfig) (m : List (String × String)) (c : List ConflictInfo)
      (n : String),
      (n ∈ (intraScanAux m c charts).1.map Prod.fst)
        ↔ n ∈ m.map Prod.fst ∨ n ∈ charts.map (·.GetAppName) := by
  intro charts
  induction charts with
  | nil => intro m c n; simp [intraScanAux]
  | cons ch rest ih =>
    intro m c n
    unfold intraScanAux
    cases hg : getA m ch.GetAppName with
    | some e =>
      rw [ih]
      constructor
      · rintro (h | h)
        · exact Or.inl h
        · exact Or.inr (List.mem_cons_of_mem _ (by simpa using h))
      · rintro (h | h)
        · exact Or.inl h
        · rcases List.mem_cons.mp (by simpa using h : n ∈ ch.GetAppName :: rest.map (·.GetAppName)) with rfl | h'
          · exact Or.inl (getA_some_mem_keys hg)
          · exact Or.inr (by simpa using h')
    | none =>
      rw [ih]
      constructor
      · rintro (h | h)
        · rw [List.map_append] at h
          rcases List.mem_append.mp h with h' | h'
          · exact Or.inl h'
          · simp at h'
            exact Or.inr (by simp [h'])
        · exact Or.inr (List.mem_cons_of_mem _ (by simpa using h))
      · rintro (h | h)
        · exact Or.inl (by rw [List.map_append]; exact List.mem_append_left _ h)
        · rcases List.mem_cons.mp (by simpa using h : n ∈ ch.GetAppName :: rest.map (·.GetAppName)) with rfl | h'
          · exact Or.inl (by rw [List.map_append]; exact List.mem_append_right _ (by simp))
          · exact Or.inr (by simpa using h')

theorem name_mem_inj {l : List ApplicationDefinition} {a b : ApplicationDefinition}
    (hn : (l.map (·.name)).Nodup) (ha : a ∈ l) (hb : b ∈ l)
    (hab : a.name = b.name) : a = b := by
  induction l with
  | nil => exact absurd ha (List.not_mem_nil a)
  | cons x xs ih =>
    rw [List.map_cons, List.nodup_cons] at hn
    rcases List.mem_cons.mp ha with rfl | ha' <;> rcases List.mem_cons.mp hb with rfl | hb'
    · rfl
    · exact absurd (List.mem_map.mpr ⟨b, hb', hab.symm⟩) hn.1
    · exact absurd (List.mem_map.mpr ⟨a, ha', hab⟩) hn.1
    · exact ih hn.2 ha' hb'

theorem filter_name_unique {l : List ApplicationDefinition} {a : ApplicationDefinition}
    {n : String} (hn : (l.map (·.name)).Nodup) (ha : a ∈ l) (hna : a.name = n) :
    l.filter (fun b => b.name = n) = [a] := by
  induction l with
  | nil => exact absurd ha (List.not_mem_nil a)
  | cons x xs ih =>
    rw [List.map_cons, List.nodup_cons] at hn
    by_cases hx : x.name = n
    · have hax : a = x := by
        rcases List.mem_cons.mp ha with rfl | ha'
        · rfl
        · exact absurd (List.mem_map.mpr ⟨a, ha', hna.trans hx.symm⟩) hn.1
      rw [List.filter_cons_of_pos (by simpa using hx)]
      have : xs.filter (fun b => b.name = n) = [] := by
        rw [List.filter_eq_nil_iff]
        intro b hb hbn
        simp only [decide_eq_true_eq] at hbn
        exact hn.1 (List.mem_map.mpr ⟨b, hb, hbn.trans hx.symm⟩)
      rw [this, hax]
    · have ha' : a ∈ xs := by
        rcases List.mem_cons.mp ha with rfl | ha'
        · exact absurd hna hx
        · exact ha'
      rw [List.filter_cons_of_neg (by simpa using hx)]
      exact ih hn.2 ha'

/-- The cross-catalog conflict condition exactly as claim C2 words it: some
effective identity the catalog would produce matches an existing downstream
resource carrying the managed-by label (value `"true"`) whose owning-catalog
label is non-empty and different from the incoming catalog's own name. -/
def claimedCrossConflict (catalog : ApplicationCatalog)
    (store : List ApplicationDefinition) : Bool :=
  ((catalog.GetHelmCharts).getD []).any (fun chart =>
    store.any (fun a =>
      a.name = chart.GetAppName
        && getA a.labels LabelManagedByApplicationCatalog = some "true"
        && (getA a.labels LabelApplicationCatalogName).getD "" ≠ ""
        && (getA a.labels LabelApplicationCatalogName).getD "" ≠ catalog.name))

theorem crossCheckName_eq_some {catalogName : String}
    {managed : List ApplicationDefinition} (hmn : (managed.map (·.name)).Nodup)
    {a : ApplicationDefinition} {n : String}
    (ha : a ∈ managed) (hn : a.name = n)
    (h1 : (getA a.labels LabelApplicationCatalogName).getD "" ≠ "")
    (h2 : (getA a.labels LabelApplicationCatalogName).getD "" ≠ catalogName) :
    crossCheckName catalogName managed n
      = some ⟨n, (getA a.labels LabelApplicationCatalogName).getD ""⟩ := by
  unfold crossCheckName
  rw [filter_name_unique hmn ha hn]
  simp only [List.getLast?_singleton]
  rw [if_neg (by push_neg; exact ⟨h1, h2⟩)]

theorem crossCheckName_ne_none_iff {catalogName : String}
    {managed : List ApplicationDefinition} (hmn : (managed.map (·.name)).Nodup)
    (n : String) :
    crossCheckName catalogName managed n ≠ none
      ↔ ∃ a ∈ managed, a.name = n
          ∧ (getA a.labels LabelApplicationCatalogName).getD "" ≠ ""
          ∧ (getA a.labels LabelApplicationCatalogName).getD "" ≠ catalogName := by
  constructor
  · intro h
    unfold crossCheckName at h
    cases hg : (managed.filter (fun a => a.name = n)).getLast? with
    | none => rw [hg] at h; simp at h
    | some appDef =>
      rw [hg] at h
      have h' : (if (getA appDef.labels LabelApplicationCatalogName).getD "" = ""
            ∨ (getA appDef.labels LabelApplicationCatalogName).getD "" = catalogName then
            (none : Option ConflictInfo)
          else some ⟨n, (getA appDef.labels LabelApplicationCatalogName).getD ""⟩) ≠
            none := h
      have hmem := List.mem_of_mem_getLast? hg
      obtain ⟨hmem', hname⟩ := List.mem_filter.mp hmem
      simp only [decide_eq_true_eq] at hname
      by_cases hbad : (getA appDef.labels LabelApplicationCatalogName).getD "" = ""
          ∨ (getA appDef.labels LabelApplicationCatalogName).getD "" = catalogName
      · rw [if_pos hbad] at h'
        exact absurd rfl h'
      · push_neg at hbad
        exact ⟨appDef, hmem', hname, hbad.1, hbad.2⟩
  · rintro ⟨a, ha, hn', h1, h2⟩
    rw [crossCheckName_eq_some hmn ha hn' h1 h2]
    simp

theorem claimedCrossConflict_iff (catalog : ApplicationCatalog)
    (store : List ApplicationDefinition) :
    claimedCrossConflict catalog store = true
      ↔ ∃ ch ∈ (catalog.GetHelmCharts).getD [], ∃ a ∈ store,
          a.name = ch.GetAppName
            ∧ getA a.labels LabelManagedByApplicationCatalog = some "true"
            ∧ (getA a.labels LabelApplicationCatalogName).getD "" ≠ ""
            ∧ (getA a.labels LabelApplicationCatalogName).getD "" ≠ catalog.name := by
  unfold claimedCrossConflict
  simp [List.any_eq_true, Bool.and_eq_true, decide_eq_true_eq, and_assoc]

/-- The two charts of the C2 counterexample collapse to one identity. -/
def w2dupCatalog : ApplicationCatalog :=
  { name := "dup-catalog"
    anns := []
    helm := some { charts := some [{ chartName := "alpha" }, { chartName := "alpha" }]
                   includeDefaults := false } }

/-- C2 counterexample — the validator denies this catalog although the
downstream state is empty, so the claimed "denies if and only if a
cross-catalog ownership conflict exists" equivalence is false: intra-catalog
duplicate identities also deny. -/
theorem conflict_denial_iff_counterexample :
    (handleValidation (some w2dupCatalog) []).isDenied = true ∧
    claimedCrossConflict w2dupCatalog [] = false := by
  exact ⟨by decide, by decide⟩

/-- C2 amended — with cluster-unique downstream names, the validator denies a
create/update exactly when the strict include-annotation check fires
(`includeDefaults` with an identifier naming no default), or the catalog has
an intra-catalog duplicate identity, or some produced identity matches an
existing managed downstream resource whose owning-catalog label is non-empty
and different from the incoming catalog (so same-catalog and unmanaged
resources are never conflicts and takeover is allowed); the denial message
is built from the full conflict list, in which every cross-catalog conflict
is enumerated. -/
theorem conflict_detector_denial_characterization
    (catalog : ApplicationCatalog) (store : List ApplicationDefinition)
    (hstore : (store.map (·.name)).Nodup) :
    ((handleValidation (some catalog) store).isDenied = true
      ↔ (((catalog.helm.map (·.includeDefaults)).getD false
            ∧ ValidateIncludeAnn ((getA catalog.anns IncludeAnnKey).getD "") ≠ [])
          ∨ ¬ (((catalog.GetHelmCharts).getD []).map (·.GetAppName)).Nodup
          ∨ claimedCrossConflict catalog store = true)) ∧
    ((¬ ((catalog.helm.map (·.includeDefaults)).getD false
          ∧ ValidateIncludeAnn ((getA catalog.anns IncludeAnnKey).getD "") ≠ [])) →
      detectConflicts catalog store ≠ [] →
      handleValidation (some catalog) store
        = .denied (formatConflictMessage (detectConflicts catalog store))) ∧
    (∀ chart ∈ (catalog.GetHelmCharts).getD [], ∀ a ∈ store,
      a.name = chart.GetAppName →
      getA a.labels LabelManagedByApplicationCatalog = some "true" →
      (getA a.labels LabelApplicationCatalogName).getD "" ≠ "" →
      (getA a.labels LabelApplicationCatalogName).getD "" ≠ catalog.name →
      ∃ ci ∈ detectConflicts catalog store,
        ci.appDefName = a.name
          ∧ ci.ownerCatalog = (getA a.labels LabelApplicationCatalogName).getD "") := by
  have hmn : ((store.filter
      (fun a => getA a.labels LabelManagedByApplicationCatalog = some "true")).map
        (·.name)).Nodup :=
    List.Nodup.sublist ((List.filter_sublist store).map (·.name)) hstore
  have hval : handleValidation (some catalog) store
      = (if ((catalog.helm.map (·.includeDefaults)).getD false
            ∧ ValidateIncludeAnn ((getA catalog.anns IncludeAnnKey).getD "") ≠ []) then
          AdmissionVerdict.denied (invalidAnnMsg
            (ValidateIncludeAnn ((getA catalog.anns IncludeAnnKey).getD ""))
            GetDefaultChartNames)
        else if (detectConflicts catalog store).length = 0 then
          .allowed "no conflicts detected"
        else .denied (formatConflictMessage (detectConflicts catalog store))) := rfl
  have hdet_eq : detectConflicts catalog store
      = (if ((catalog.GetHelmCharts).getD []).length = 0 then []
        else (intraCatalogScan ((catalog.GetHelmCharts).getD [])).2
          ++ crossCatalogScan catalog.name
              (intraCatalogScan ((catalog.GetHelmCharts).getD [])).1
              (store.filter
                (fun a => getA a.labels LabelManagedByApplicationCatalog = some "true"))) := rfl
  have hscan : ((intraCatalogScan ((catalog.GetHelmCharts).getD [])).2 = [])
      ↔ (((catalog.GetHelmCharts).getD []).map (·.GetAppName)).Nodup := by
    unfold intraCatalogScan
    rw [intraScanAux_no_dup]
    simp [getA]
  have hcross : (crossCatalogScan catalog.name
        (intraCatalogScan ((catalog.GetHelmCharts).getD [])).1
        (store.filter
          (fun a => getA a.labels LabelManagedByApplicationCatalog = some "true")) ≠ [])
      ↔ claimedCrossConflict catalog store = true := by
    unfold crossCatalogScan
    rw [ne_eq, List.filterMap_eq_nil_iff]
    push_neg
    rw [claimedCrossConflict_iff]
    constructor
    · rintro ⟨n, hn, hne⟩
      have hn' : n ∈ ((catalog.GetHelmCharts).getD []).map (·.GetAppName) := by
        have := (intraScanAux_keys ((catalog.GetHelmCharts).getD []) [] [] n).mp hn
        simpa using this
      obtain ⟨ch, hch, hcheq⟩ := List.mem_map.mp hn'
      obtain ⟨a, ha, haname, h1, h2⟩ := (crossCheckName_ne_none_iff hmn n).mp hne
      obtain ⟨hastore, halabel⟩ := List.mem_filter.mp ha
      simp only [decide_eq_true_eq] at halabel
      exact ⟨ch, hch, a, hastore, haname.trans hcheq.symm, halabel, h1, h2⟩
    · rintro ⟨ch, hch, a, hastore, haname, hlabel, h1, h2⟩
      refine ⟨ch.GetAppName, ?_, ?_⟩
      · exact (intraScanAux_keys ((catalog.GetHelmCharts).getD []) [] [] _).mpr
          (Or.inr (List.mem_map.mpr ⟨ch, hch, rfl⟩))
      · exact (crossCheckName_ne_none_iff hmn _).mpr
          ⟨a, List.mem_filter.mpr ⟨hastore, by simpa using hlabel⟩, haname, h1, h2⟩
  have hdetect : (detectConflicts catalog store ≠ [])
      ↔ (¬ (((catalog.GetHelmCharts).getD []).map (·.GetAppName)).Nodup
          ∨ claimedCrossConflict catalog store = true) := by
    rw [hdet_eq]
    by_cases hz : ((catalog.GetHelmCharts).getD []).length = 0
    · rw [if_pos hz]
      have hch : (catalog.GetHelmCharts).getD [] = [] := List.length_eq_zero.mp hz
      have hclaim : claimedCrossConflict catalog store = false := by
        unfold claimedCrossConflict
        rw [hch]
        rfl
      simp [hch, hclaim]
    · rw [if_neg hz]
      rw [ne_eq, List.append_eq_nil, not_and_or]
      apply or_congr
      · exact not_congr hscan
      · exact hcross
  refine ⟨?_, ?_, ?_⟩
  · rw [hval]
    by_cases hann : ((catalog.helm.map (·.includeDefaults)).getD false
        ∧ ValidateIncludeAnn ((getA catalog.anns IncludeAnnKey).getD "") ≠ [])
    · rw [if_pos hann]
      simp only [AdmissionVerdict.isDenied, true_iff]
      exact Or.inl hann
    · rw [if_neg hann]
      by_cases hc : (detectConflicts catalog store).length = 0
      · rw [if_pos hc]
        simp only [AdmissionVerdict.isDenied, Bool.false_eq_true, false_iff]
        rintro (h | h)
        · exact hann h
        · have hne : detectConflicts catalog store = [] := List.length_eq_zero.mp hc
          exact (hne ▸ hdetect.mpr h) rfl
      · rw [if_neg hc]
        simp only [AdmissionVerdict.isDenied, true_iff]
        exact Or.inr (hdetect.mp (fun heq => hc (by rw [heq]; rfl)))
  · intro hann hne
    rw [hval, if_neg hann, if_neg (fun hz => hne (List.length_eq_zero.mp hz))]
  · intro chart hchart a hastore haname hlabel h1 h2
    have hnz : ¬ (((catalog.GetHelmCharts).getD []).length = 0) := by
      intro hz
      rw [List.length_eq_zero.mp hz] at hchart
      exact List.not_mem_nil chart hchart
    have hsome := @crossCheckName_eq_some catalog.name _ hmn _ _
      (List.mem_filter.mpr ⟨hastore, by simpa using hlabel⟩) haname h1 h2
    have hkey : a.name ∈ (intraCatalogScan ((catalog.GetHelmCharts).getD [])).1.map Prod.fst := by
      apply (intraScanAux_keys ((catalog.GetHelmCharts).getD []) [] [] _).mpr
      exact Or.inr (List.mem_map.mpr ⟨chart, hchart, haname.symm⟩)
    refine ⟨⟨chart.GetAppName, (getA a.labels LabelApplicationCatalogName).getD ""⟩,
      ?_, haname.symm, rfl⟩
    rw [hdet_eq, if_neg hnz]
    apply List.mem_append_right
    unfold crossCatalogScan
    refine List.mem_filterMap.mpr ⟨chart.GetAppName, ?_, hsome⟩
    rw [← haname]
    exact hkey

/-- Concrete inputs for the C2 witness: catalog B declares the identity that
catalog A already owns downstream. -/
def w2catalogB : ApplicationCatalog :=
  { name := "catalog-b"
    anns := []
    helm := some { charts := some [{ chartName := "nginx" }], includeDefaults := false } }

/-- Downstream state for the C2 witness: `nginx` managed and owned by
catalog A. -/
def w2storeA : List ApplicationDefinition :=
  [{ name := "nginx"
     labels := [(LabelManagedByApplicationCatalog, "true"),
                (LabelApplicationCatalogName, "catalog-a")]
     anns := []
     spec := {} }]

/-- C2 witness: the characterization applied to the concrete cross-catalog
conflict, which is indeed denied. -/
theorem conflict_detector_denial_witness :
    (w2storeA.map (·.name)).Nodup ∧
    ((handleValidation (some w2catalogB) w2storeA).isDenied = true
      ↔ (((w2catalogB.helm.map (·.includeDefaults)).getD false
            ∧ ValidateIncludeAnn ((getA w2catalogB.anns IncludeAnnKey).getD "") ≠ [])
          ∨ ¬ (((w2catalogB.GetHelmCharts).getD []).map (·.GetAppName)).Nodup
          ∨ claimedCrossConflict w2catalogB w2storeA = true)) ∧
    claimedCrossConflict w2catalogB w2storeA = true ∧
    (handleValidation (some w2catalogB) w2storeA).isDenied = true :=
  ⟨by decide,
   (conflict_detector_denial_characterization w2catalogB w2storeA (by decide)).1,
   by decide, by decide⟩

/-- C8 — admission-time strictness versus defaulting-time leniency: when
`includeDefaults` is true and the include annotation carries an identifier
naming no built-in default, the validator denies the request with a message
built from the invalid names and the valid set; the defaulting engine's
filter, for the same identifiers, silently ignores the invalid ones — the
filtered default set is unchanged when the invalid identifiers are
removed. -/
theorem strict_validation_lenient_defaulting
    (catalog : ApplicationCatalog) (store : List ApplicationDefinition) (h : HelmSpec)
    (hh : catalog.helm = some h) (hid : h.includeDefaults = true)
    (hinv : ValidateIncludeAnn ((getA catalog.anns IncludeAnnKey).getD "") ≠ []) :
    handleValidation (some catalog) store
      = .denied (invalidAnnMsg
          (ValidateIncludeAnn ((getA catalog.anns IncludeAnnKey).getD ""))
          GetDefaultChartNames) ∧
    (∀ ids : List String,
      filterDefaultsByName GetDefaultCharts ids
        = filterDefaultsByName GetDefaultCharts
            (ids.filter (fun n => GetDefaultChartNames.contains n))) := by
  constructor
  · have hval : handleValidation (some catalog) store
        = (if ((catalog.helm.map (·.includeDefaults)).getD false
              ∧ ValidateIncludeAnn ((getA catalog.anns IncludeAnnKey).getD "") ≠ []) then
            AdmissionVerdict.denied (invalidAnnMsg
              (ValidateIncludeAnn ((getA catalog.anns IncludeAnnKey).getD ""))
              GetDefaultChartNames)
          else if (detectConflicts catalog store).length = 0 then
            .allowed "no conflicts detected"
          else .denied (formatConflictMessage (detectConflicts catalog store))) := rfl
    rw [hval, if_pos ⟨by rw [hh]; exact hid, hinv⟩]
  · intro ids
    unfold filterDefaultsByName
    apply List.filter_congr
    intro c hc
    have hval : GetDefaultChartNames.contains c.chartName = true :=
      List.elem_iff.mpr (List.mem_map.mpr ⟨c, hc, rfl⟩)
    by_cases hmem : c.chartName ∈ ids
    · have hmem' : c.chartName ∈ ids.filter (fun n => GetDefaultChartNames.contains n) :=
        List.mem_filter.mpr ⟨hmem, hval⟩
      simp [hmem, hmem', List.elem_iff.mp hval]
    · have hmem' : c.chartName ∉ ids.filter (fun n => GetDefaultChartNames.contains n) :=
        fun hx => hmem (List.mem_filter.mp hx).1
      simp [hmem, hmem']

/-- Concrete catalog for the C8 witness: `includeDefaults` with an
annotation naming one valid and one unknown chart. -/
def w8catalog : ApplicationCatalog :=
  { name := "strict-catalog"
    anns := [(IncludeAnnKey, "ingress-nginx,non-existent")]
    helm := some { charts := none, includeDefaults := true } }

/-- C8 witness: the strict/lenient theorem at the concrete catalog, plus the
evaluated leniency — defaulting keeps exactly the valid identifier's chart. -/
theorem strict_validation_lenient_defaulting_witness :
    (w8catalog.helm = some { charts := none, includeDefaults := true }) ∧
    (ValidateIncludeAnn ((getA w8catalog.anns IncludeAnnKey).getD "")
      = ["non-existent"]) ∧
    (handleValidation (some w8catalog) []
      = .denied (invalidAnnMsg
          (ValidateIncludeAnn ((getA w8catalog.anns IncludeAnnKey).getD ""))
          GetDefaultChartNames)) ∧
    (filterDefaultsByName GetDefaultCharts ["ingress-nginx", "non-existent"]
      = filterDefaultsByName GetDefaultCharts
          (["ingress-nginx", "non-existent"].filter
            (fun n => GetDefaultChartNames.contains n))) ∧
    ((DefaultApplicationCatalog w8catalog).helm.bind (·.charts)
      = some (GetDefaultCharts.filter (fun c => c.chartName = "ingress-nginx"))) :=
  ⟨rfl, by decide,
   (strict_validation_lenient_defaulting w8catalog []
      { charts := none, includeDefaults := true } rfl rfl (by decide)).1,
   (strict_validation_lenient_defaulting w8catalog []
      { charts := none, includeDefaults := true } rfl rfl (by decide)).2
      ["ingress-nginx", "non-existent"],
   by decide⟩

/-! ## Stability lemmas towards reconcile idempotence (C9) -/

theorem setA_keyvals {α : Type} {m : List (String × α)} {k : String} {v : α}
    {p : String × α} (hp : p ∈ setA m k v) (hk : p.1 = k) : p.2 = v := by
  unfold setA at hp
  split at hp
  · obtain ⟨q, hq, hfq⟩ := List.mem_map.mp hp
    by_cases hqk : q.1 = k
    · rw [← hfq]; simp [hqk]
    · rw [← hfq] at hk
      simp [hqk] at hk
  · rcases List.mem_append.mp hp with h' | h'
    · rename_i hany
      exact absurd (List.any_eq_true.mpr ⟨p, h', by simp [hk]⟩) hany
    · simp at h'
      rw [h']

theorem setA_keyvals_preserved {α : Type} {m : List (String × α)} {k k' : String}
    {v v' : α} (hkk : k ≠ k')
    (hall : ∀ p ∈ m, p.1 = k → p.2 = v) :
    ∀ p ∈ setA m k' v', p.1 = k → p.2 = v := by
  intro p hp hk
  rcases mem_setA hp with h' | h'
  · exact hall p h' hk
  · rw [h'] at hk
    simp at hk
    exact absurd hk.symm hkk

theorem setA_eq_self {α : Type} {m : List (String × α)} {k : String} {v : α}
    (hall : ∀ p ∈ m, p.1 = k → p.2 = v)
    (hany : m.any (fun p => p.1 = k) = true) :
    setA m k v = m := by
  unfold setA
  rw [if_pos (by simpa using hany)]
  have hc : ∀ p ∈ m, (if p.1 = k then ((k, v) : String × α) else p) = p := by
    intro p hp
    by_cases hk : p.1 = k
    · rw [if_pos hk]
      have hv := hall p hp hk
      cases p
      simp_all
    · rw [if_neg hk]
  rw [List.map_congr_left hc]
  exact List.map_id m

theorem any_key_ensure_pair {α : Type} (m : List (String × α)) (k1 k2 : String)
    (v1 v2 : α) (k : String) (hk : k = k1 ∨ k = k2) :
    (setA (setA m k1 v1) k2 v2).any (fun p => p.1 = k) = true := by
  rcases hk with rfl | rfl
  · exact any_key_setA_of_any _ _ (any_key_setA_self m k v1)
  · exact any_key_setA_self _ k v2

theorem ensureA_pair_idem {α : Type} (m : List (String × α)) (k1 k2 : String)
    (v1 v2 : α) (hkk : k1 ≠ k2) :
    setA (setA (setA (setA m k1 v1) k2 v2) k1 v1) k2 v2
      = setA (setA m k1 v1) k2 v2 := by
  have h1 : setA (setA (setA m k1 v1) k2 v2) k1 v1 = setA (setA m k1 v1) k2 v2 := by
    apply setA_eq_self
    · exact setA_keyvals_preserved hkk (fun p hp hk => setA_keyvals hp hk)
    · exact any_key_ensure_pair m k1 k2 v1 v2 k1 (Or.inl rfl)
  rw [h1]
  apply setA_eq_self
  · exact fun p hp hk => setA_keyvals hp hk
  · exact any_key_ensure_pair m k1 k2 v1 v2 k2 (Or.inr rfl)

theorem ensureA_pair_self (k1 k2 : String) (v1 v2 : String) (hkk : k1 ≠ k2) :
    ensureA [(k1, v1), (k2, v2)] [(k1, v1), (k2, v2)] = [(k1, v1), (k2, v2)] := by
  unfold ensureA
  rw [List.foldl_cons, List.foldl_cons, List.foldl_nil]
  have h1 : setA [(k1, v1), (k2, v2)] k1 v1 = [(k1, v1), (k2, v2)] := by
    apply setA_eq_self
    · intro p hp hk
      rcases List.mem_cons.mp hp with rfl | hp'
      · rfl
      · simp at hp'
        subst hp'
        simp at hk
        exact absurd hk.symm hkk
    · exact List.any_eq_true.mpr ⟨(k1, v1), by simp, by simp⟩
  rw [h1]
  apply setA_eq_self
  · intro p hp hk
    rcases List.mem_cons.mp hp with rfl | hp'
    · simp at hk
      exact absurd hk hkk
    · simp at hp'
      subst hp'
      rfl
  · exact List.any_eq_true.mpr ⟨(k2, v2), by simp, by simp⟩

theorem getA_setA_self {α : Type} (m : List (String × α)) (k : String) (v : α) :
    getA (setA m k v) k = some v := by
  unfold setA
  split
  · rename_i hany
    obtain ⟨q, hq, hqk⟩ := List.any_eq_true.mp hany
    simp only [decide_eq_true_eq] at hqk
    clear hany
    induction m with
    | nil => exact absurd hq (List.not_mem_nil q)
    | cons p rest ih =>
      by_cases hpk : p.1 = k
      · unfold getA
        rw [List.map_cons, if_pos hpk, List.find?_cons_of_pos _ (by simp)]
        rfl
      · unfold getA
        rw [List.map_cons, if_neg hpk, List.find?_cons_of_neg _ (by simpa using hpk)]
        rcases List.mem_cons.mp hq with rfl | hq'
        · exact absurd hqk hpk
        · exact ih hq'
  · unfold getA
    rename_i hany
    rw [List.find?_append,
      List.find?_eq_none.mpr (fun p hp hpk => by
        simp only [decide_eq_true_eq] at hpk
        exact (by simpa using hany : ¬ m.any (fun p => p.1 = k) = true)
          (List.any_eq_true.mpr ⟨p, hp, by simp [hpk]⟩)),
      Option.none_or, List.find?_cons_of_pos _ (by simp)]
    rfl

theorem getA_map_replace_ne {α : Type} {k k' : String} (hne : k' ≠ k) (v : α) :
    ∀ (m : List (String × α)),
      getA (m.map (fun p => if p.1 = k then (k, v) else p)) k' = getA m k' := by
  intro m
  induction m with
  | nil => rfl
  | cons p rest ih =>
    by_cases hpk : p.1 = k
    · have hpk' : ¬ (p.1 = k') := fun hh => hne (hh ▸ hpk)
      unfold getA at ih ⊢
      rw [List.map_cons, if_pos hpk,
        List.find?_cons_of_neg _ (by simp; exact fun hh => hne hh.symm),
        List.find?_cons_of_neg _ (by simpa using hpk')]
      exact ih
    · unfold getA at ih ⊢
      rw [List.map_cons, if_neg hpk]
      by_cases hpk' : p.1 = k'
      · rw [List.find?_cons_of_pos _ (by simpa using hpk'),
          List.find?_cons_of_pos _ (by simpa using hpk')]
      · rw [List.find?_cons_of_neg _ (by simpa using hpk'),
          List.find?_cons_of_neg _ (by simpa using hpk')]
        exact ih

theorem getA_setA_ne {α : Type} (m : List (String × α)) {k k' : String} (v : α)
    (h : k' ≠ k) : getA (setA m k v) k' = getA m k' := by
  unfold setA
  split
  · exact getA_map_replace_ne h v m
  · unfold getA
    rw [List.find?_append,
      List.find?_cons_of_neg _ (by simp; exact fun hh => h hh.symm)]
    simp

theorem appDef_eq_of_fields {x y : ApplicationDefinition}
    (h1 : x.name = y.name) (h2 : x.labels = y.labels) (h3 : x.anns = y.anns)
    (h4 : x.spec = y.spec) : x = y := by
  cases x; cases y; simp_all

theorem appDefSpec_eq_of_fields {x y : ApplicationDefinitionSpec}
    (h1 : x.displayName = y.displayName) (h2 : x.description = y.description)
    (h3 : x.documentationURL = y.documentationURL) (h4 : x.sourceURL = y.sourceURL)
    (h5 : x.logo = y.logo) (h6 : x.logoFormat = y.logoFormat) (h7 : x.method = y.method)
    (h8 : x.defaultValuesBlock = y.defaultValuesBlock) (h9 : x.enforced = y.enforced)
    (h10 : x.default = y.default) (h11 : x.selectorDatacenters = y.selectorDatacenters)
    (h12 : x.versions = y.versions) : x = y := by
  cases x; cases y; simp_all

theorem specMerge_eq_self (V D : List ApplicationVersion)
    (hfix : ∀ v ∈ V, replaceByKey D v = v)
    (hcov : ∀ d ∈ D, ∃ e ∈ V, e.version = d.version) :
    specMergeVersions V D = V := by
  unfold specMergeVersions
  have hfilter : D.filter (fun x => !(V.any (fun e => e.version = x.version))) = [] := by
    rw [List.filter_eq_nil_iff]
    intro d hdm
    obtain ⟨e, hev, heq⟩ := hcov d hdm
    simp only [Bool.not_eq_true', Bool.not_eq_false]
    exact List.any_eq_true.mpr ⟨e, hev, by simp [heq]⟩
  rw [hfilter, List.append_nil, List.map_congr_left hfix]
  exact List.map_id _

theorem merge_sorted_versions_stable (E D : List ApplicationVersion)
    (he : (E.map (·.version)).Nodup) (hd : (D.map (·.version)).Nodup) :
    mergeVersions (sortVersions (mergeVersions E D)) D
      = sortVersions (mergeVersions E D)
    ∧ sortVersions (sortVersions (mergeVersions E D))
      = sortVersions (mergeVersions E D) := by
  have hmerge : mergeVersions E D = specMergeVersions E D := mergeVersions_eq_spec E D he hd
  have hperm : (sortVersions (specMergeVersions E D)).Perm (specMergeVersions E D) :=
    sortVersions_perm _
  have hkeysM : ((specMergeVersions E D).map (·.version)).Nodup := specMerge_keys_nodup he hd
  have hkeysV : ((sortVersions (specMergeVersions E D)).map (·.version)).Nodup :=
    ((hperm.map _).nodup_iff).mpr hkeysM
  have hmemD : ∀ v ∈ sortVersions (specMergeVersions E D), ∀ d ∈ D,
      v.version = d.version → v = d := by
    intro v hv d hdm hk
    exact specMerge_mem_of_desired_key hd (hperm.mem_iff.mp hv) hdm hk
  have hsubD : ∀ d ∈ D,
      d.version ∈ (sortVersions (specMergeVersions E D)).map (·.version) := by
    intro d hdm
    have hfd : findByKey (specMergeVersions E D) d.version = some d := by
      rw [findByKey_specMerge_desired he hd (List.mem_map.mpr ⟨d, hdm, rfl⟩)]
      exact findByKey_eq_some_of_mem hd hdm
    have hmem : d ∈ specMergeVersions E D := List.mem_of_find?_eq_some hfd
    exact List.mem_map.mpr ⟨d, hperm.mem_iff.mpr hmem, rfl⟩
  rw [hmerge]
  refine ⟨?_, sortVersions_eq_of_sorted (sortVersions_sorted _)⟩
  rw [mergeVersions_eq_spec _ D hkeysV hd]
  apply specMerge_eq_self
  · intro v hv
    unfold replaceByKey
    cases hf : D.find? (fun d => d.version = v.version) with
    | none => rfl
    | some d =>
      have hdm := List.mem_of_find?_eq_some hf
      have hdk : d.version = v.version := by simpa using List.find?_some hf
      rw [Option.getD_some]
      exact (hmemD v hv d hdm hdk.symm).symm
  · intro d hdm
    obtain ⟨e, hev, heq⟩ := List.mem_map.mp (hsubD d hdm)
    exact ⟨e, hev, heq⟩

theorem merge_self_sorted (V : List ApplicationVersion)
    (hn : (V.map (·.version)).Nodup) (hs : List.Sorted versionLE V) :
    sortVersions (mergeVersions V V) = V := by
  have hfix : ∀ v ∈ V, replaceByKey V v = v := by
    intro v hv
    have h := findByKey_eq_some_of_mem hn hv
    unfold findByKey at h
    unfold replaceByKey
    rw [h]
    rfl
  have hcov : ∀ d ∈ V, ∃ e ∈ V, e.version = d.version := fun d hd => ⟨d, hd, rfl⟩
  rw [mergeVersions_eq_spec V V hn hn, specMerge_eq_self V V hfix hcov]
  exact sortVersions_eq_of_sorted hs

theorem updateApplicationDefinition_self (d : ApplicationDefinition)
    (k1 v1 k2 v2 : String) (hkk : k1 ≠ k2)
    (hdlab : d.labels = [(k1, v1), (k2, v2)]) (hdann : d.anns = [])
    (hdv : (d.spec.versions.map (·.version)).Nodup)
    (hds : List.Sorted versionLE d.spec.versions) :
    updateApplicationDefinition d d = d := by
  apply appDef_eq_of_fields
  · rfl
  · show ensureA d.labels d.labels = d.labels
    rw [hdlab]
    exact ensureA_pair_self k1 k2 v1 v2 hkk
  · show ensureA d.anns d.anns = d.anns
    rw [hdann]
    rfl
  · refine appDefSpec_eq_of_fields rfl rfl rfl rfl rfl rfl rfl ?_ ?_ ?_ ?_ ?_
    · show (if d.spec.defaultValuesBlock ≠ ""
            ∧ d.spec.defaultValuesBlock ≠ "\x7b\x7d" then
          d.spec.defaultValuesBlock
        else d.spec.defaultValuesBlock) = d.spec.defaultValuesBlock
      exact ite_self _
    · show (if d.spec.enforced then true else d.spec.enforced) = d.spec.enforced
      cases h : d.spec.enforced <;> simp
    · show (if d.spec.default then true else d.spec.default) = d.spec.default
      cases h : d.spec.default <;> simp
    · show (if d.spec.selectorDatacenters ≠ none then d.spec.selectorDatacenters
        else d.spec.selectorDatacenters) = d.spec.selectorDatacenters
      exact ite_self _
    · show sortVersions (mergeVersions d.spec.versions d.spec.versions)
        = d.spec.versions
      exact merge_self_sorted _ hdv hds

theorem updateApplicationDefinition_idem (e d : ApplicationDefinition)
    (hev : (e.spec.versions.map (·.version)).Nodup)
    (hdv : (d.spec.versions.map (·.version)).Nodup)
    (k1 v1 k2 v2 : String) (hkk : k1 ≠ k2)
    (hdlab : d.labels = [(k1, v1), (k2, v2)]) (hdann : d.anns = []) :
    updateApplicationDefinition (updateApplicationDefinition e d) d
      = updateApplicationDefinition e d := by
  apply appDef_eq_of_fields
  · rfl
  · show ensureA (ensureA e.labels d.labels) d.labels = ensureA e.labels d.labels
    rw [hdlab]
    unfold ensureA
    simp only [List.foldl_cons, List.foldl_nil]
    exact ensureA_pair_idem e.labels k1 k2 v1 v2 hkk
  · show ensureA (ensureA e.anns d.anns) d.anns = ensureA e.anns d.anns
    rw [hdann]
    rfl
  · refine appDefSpec_eq_of_fields rfl rfl rfl rfl rfl rfl rfl ?_ ?_ ?_ ?_ ?_
    · show (if (if e.spec.defaultValuesBlock ≠ ""
              ∧ e.spec.defaultValuesBlock ≠ "\x7b\x7d" then
            e.spec.defaultValuesBlock else d.spec.defaultValuesBlock) ≠ ""
          ∧ (if e.spec.defaultValuesBlock ≠ ""
              ∧ e.spec.defaultValuesBlock ≠ "\x7b\x7d" then
            e.spec.defaultValuesBlock else d.spec.defaultValuesBlock)
              ≠ "\x7b\x7d" then
          (if e.spec.defaultValuesBlock ≠ ""
              ∧ e.spec.defaultValuesBlock ≠ "\x7b\x7d" then
            e.spec.defaultValuesBlock else d.spec.defaultValuesBlock)
        else d.spec.defaultValuesBlock)
          = (if e.spec.defaultValuesBlock ≠ ""
              ∧ e.spec.defaultValuesBlock ≠ "\x7b\x7d" then
            e.spec.defaultValuesBlock else d.spec.defaultValuesBlock)
      by_cases hC : e.spec.defaultValuesBlock ≠ ""
          ∧ e.spec.defaultValuesBlock ≠ "\x7b\x7d"
      · rw [if_pos hC, if_pos hC]
      · rw [if_neg hC, ite_self]
    · show (if (if e.spec.enforced then true else d.spec.enforced) then true
          else d.spec.enforced)
            = (if e.spec.enforced then true else d.spec.enforced)
      cases h1 : e.spec.enforced <;> cases h2 : d.spec.enforced <;> simp
    · show (if (if e.spec.default then true else d.spec.default) then true
          else d.spec.default)
            = (if e.spec.default then true else d.spec.default)
      cases h1 : e.spec.default <;> cases h2 : d.spec.default <;> simp
    · show (if (if e.spec.selectorDatacenters ≠ none then e.spec.selectorDatacenters
            else d.spec.selectorDatacenters) ≠ none then
          (if e.spec.selectorDatacenters ≠ none then e.spec.selectorDatacenters
            else d.spec.selectorDatacenters)
        else d.spec.selectorDatacenters)
          = (if e.spec.selectorDatacenters ≠ none then e.spec.selectorDatacenters
            else d.spec.selectorDatacenters)
      by_cases hC : e.spec.selectorDatacenters ≠ none
      · rw [if_pos hC, if_pos hC]
      · rw [if_neg hC, ite_self]
    · show sortVersions (mergeVersions
          (sortVersions (mergeVersions e.spec.versions d.spec.versions))
          d.spec.versions)
        = sortVersions (mergeVersions e.spec.versions d.spec.versions)
      rw [(merge_sorted_versions_stable e.spec.versions d.spec.versions hev hdv).1]
      exact (merge_sorted_versions_stable e.spec.versions d.spec.versions hev hdv).2

theorem reconcileAppDef_eq_none {st : List ApplicationDefinition}
    {d : ApplicationDefinition} (hg : getAppDef st d.name = none) :
    reconcileApplicationDefinition st d = (st ++ [d], [.create d.name]) := by
  unfold reconcileApplicationDefinition
  split
  · rfl
  · rename_i e h
    rw [hg] at h
    cases h

theorem reconcileAppDef_eq_some {st : List ApplicationDefinition}
    {d e : ApplicationDefinition} (hg : getAppDef st d.name = some e) :
    reconcileApplicationDefinition st d =
      (if isSystemApplication e then (st, [])
       else (putAppDef st (updateApplicationDefinition e d),
         if updateApplicationDefinition e d = e then []
         else [.patch d.name])) := by
  unfold reconcileApplicationDefinition
  split
  · rename_i h
    rw [hg] at h
    cases h
  · rename_i ex h
    rw [hg] at h
    injection h with h'
    subst h'
    rfl

theorem putAppDef_names (st : List ApplicationDefinition)
    (u : ApplicationDefinition) :
    (putAppDef st u).map (·.name) = st.map (·.name) := by
  unfold putAppDef
  rw [List.map_map]
  apply List.map_congr_left
  intro b _
  show (if b.name = u.name then u else b).name = b.name
  by_cases hb : b.name = u.name
  · rw [if_pos hb, hb]
  · rw [if_neg hb]

theorem putAppDef_self {st : List ApplicationDefinition}
    {e : ApplicationDefinition} (hn : (st.map (·.name)).Nodup)
    (hg : getAppDef st e.name = some e) : putAppDef st e = st := by
  have hmem : e ∈ st := List.mem_of_find?_eq_some hg
  unfold putAppDef
  have hfix : ∀ b ∈ st, (if b.name = e.name then e else b) = b := by
    intro b hb
    by_cases hbe : b.name = e.name
    · rw [if_pos hbe]
      exact (name_mem_inj hn hb hmem hbe).symm
    · rw [if_neg hbe]
  rw [List.map_congr_left hfix]
  exact List.map_id _

theorem getAppDef_put_ne (st : List ApplicationDefinition)
    (u : ApplicationDefinition) {n : String} (hne : n ≠ u.name) :
    getAppDef (putAppDef st u) n = getAppDef st n := by
  unfold getAppDef putAppDef
  induction st with
  | nil => rfl
  | cons b l ih =>
    rw [List.map_cons]
    by_cases hb : b.name = u.name
    · rw [if_pos hb,
        List.find?_cons_of_neg _ (by simpa using fun h => hne h.symm),
        List.find?_cons_of_neg _ (by simpa using fun h => hne (hb ▸ h).symm)]
      exact ih
    · rw [if_neg hb]
      by_cases hbn : b.name = n
      · rw [List.find?_cons_of_pos _ (by simpa using hbn),
          List.find?_cons_of_pos _ (by simpa using hbn)]
      · rw [List.find?_cons_of_neg _ (by simpa using hbn),
          List.find?_cons_of_neg _ (by simpa using hbn)]
        exact ih

theorem getAppDef_append_of_ne (st : List ApplicationDefinition)
    (d : ApplicationDefinition) {n : String} (hne : d.name ≠ n) :
    getAppDef (st ++ [d]) n = getAppDef st n := by
  unfold getAppDef
  induction st with
  | nil =>
    rw [List.nil_append, List.find?_cons_of_neg _ (by simpa using hne)]
  | cons b l ih =>
    rw [List.cons_append]
    by_cases hb : b.name = n
    · rw [List.find?_cons_of_pos _ (by simpa using hb),
        List.find?_cons_of_pos _ (by simpa using hb)]
    · rw [List.find?_cons_of_neg _ (by simpa using hb),
        List.find?_cons_of_neg _ (by simpa using hb)]
      exact ih

theorem getAppDef_append_self (d : ApplicationDefinition) :
    ∀ (st : List ApplicationDefinition), getAppDef st d.name = none →
      getAppDef (st ++ [d]) d.name = some d := by
  intro st
  induction st with
  | nil =>
    intro _
    rw [List.nil_append]
    unfold getAppDef
    rw [List.find?_cons_of_pos _ (by simp)]
  | cons b l ih =>
    intro hg
    unfold getAppDef at *
    have hb : ¬ (b.name = d.name) := by
      intro hh
      rw [List.find?_cons_of_pos _ (by simpa using hh)] at hg
      cases hg
    rw [List.cons_append, List.find?_cons_of_neg _ (by simpa using hb)]
    apply ih
    rw [List.find?_cons_of_neg _ (by simpa using hb)] at hg
    exact hg

theorem reconcileAppDef_get_ne (st : List ApplicationDefinition)
    (d : ApplicationDefinition) {n : String} (hne : n ≠ d.name) :
    getAppDef (reconcileApplicationDefinition st d).1 n = getAppDef st n := by
  cases hg : getAppDef st d.name with
  | none =>
    rw [reconcileAppDef_eq_none hg]
    exact getAppDef_append_of_ne st d (fun h => hne h.symm)
  | some e =>
    rw [reconcileAppDef_eq_some hg]
    by_cases hs : isSystemApplication e = true
    · rw [if_pos hs]
    · rw [if_neg hs]
      have hu : (updateApplicationDefinition e d).name = d.name := by
        show e.name = d.name
        exact getAppDef_name hg
      exact getAppDef_put_ne st _ (by rw [hu]; exact hne)

theorem reconcileAppDef_names_nodup (st : List ApplicationDefinition)
    (d : ApplicationDefinition) (hn : (st.map (·.name)).Nodup) :
    ((reconcileApplicationDefinition st d).1.map (·.name)).Nodup := by
  cases hg : getAppDef st d.name with
  | none =>
    rw [reconcileAppDef_eq_none hg]
    show ((st ++ [d]).map (·.name)).Nodup
    rw [List.map_append, List.nodup_append]
    refine ⟨hn, List.nodup_singleton _, ?_⟩
    intro x hx hxd
    obtain ⟨a, ha, hax⟩ := List.mem_map.mp hx
    have hxn : x = d.name := List.mem_singleton.mp hxd
    have hnone := List.find?_eq_none.mp hg a ha
    rw [hax, hxn] at hnone
    simp at hnone
  | some e =>
    rw [reconcileAppDef_eq_some hg]
    by_cases hs : isSystemApplication e = true
    · rw [if_pos hs]
      exact hn
    · rw [if_neg hs]
      show ((putAppDef st (updateApplicationDefinition e d)).map (·.name)).Nodup
      rw [putAppDef_names]
      exact hn

/-- A cluster state at which a desired object needs no further write: the
lookup succeeds and the entry is either externally managed (skipped) or a
fixed point of the update merge. -/
def Converged (st : List ApplicationDefinition) (d : ApplicationDefinition) : Prop :=
  ∃ ex, getAppDef st d.name = some ex ∧
    (isSystemApplication ex = true ∨ updateApplicationDefinition ex d = ex)

theorem merged_keys_nodup {E D : List ApplicationVersion}
    (he : (E.map (·.version)).Nodup) (hd : (D.map (·.version)).Nodup) :
    ((sortVersions (mergeVersions E D)).map (·.version)).Nodup := by
  rw [mergeVersions_eq_spec E D he hd]
  exact (((sortVersions_perm _).map _).nodup_iff).mpr (specMerge_keys_nodup he hd)

theorem reconcileAppDef_vers (st : List ApplicationDefinition)
    (d : ApplicationDefinition)
    (hv : ∀ a ∈ st, ((a.spec.versions).map (·.version)).Nodup)
    (hd : ((d.spec.versions).map (·.version)).Nodup) :
    ∀ a ∈ (reconcileApplicationDefinition st d).1,
      ((a.spec.versions).map (·.version)).Nodup := by
  intro a ha
  cases hg : getAppDef st d.name with
  | none =>
    rw [reconcileAppDef_eq_none hg] at ha
    rcases List.mem_append.mp ha with h | h
    · exact hv a h
    · rcases List.mem_singleton.mp h with rfl
      exact hd
  | some e =>
    rw [reconcileAppDef_eq_some hg] at ha
    by_cases hs : isSystemApplication e = true
    · rw [if_pos hs] at ha
      exact hv a ha
    · rw [if_neg hs] at ha
      have ha' : a ∈ putAppDef st (updateApplicationDefinition e d) := ha
      unfold putAppDef at ha'
      obtain ⟨b, hb, hba⟩ := List.mem_map.mp ha'
      by_cases hbn : b.name = (updateApplicationDefinition e d).name
      · rw [if_pos hbn] at hba
        rw [← hba]
        show ((sortVersions (mergeVersions e.spec.versions d.spec.versions)).map
          (·.version)).Nodup
        exact merged_keys_nodup (hv e (List.mem_of_find?_eq_some hg)) hd
      · rw [if_neg hbn] at hba
        rw [← hba]
        exact hv b hb

theorem convertVersions_keys (ac : ApplicationCatalog) (c : ChartConfig) :
    (convertVersions ac c).map (·.version) = c.chartVersions.map (·.appVersion) := by
  unfold convertVersions
  rw [List.map_map]
  rfl

theorem convertVersions_sorted (ac : ApplicationCatalog) (c : ChartConfig)
    (h : List.Pairwise (fun x y => x.appVersion ≤ y.appVersion) c.chartVersions) :
    List.Sorted versionLE (convertVersions ac c) := by
  unfold convertVersions
  exact List.pairwise_map.mpr (h.imp (fun hxy => hxy))

theorem reconcileAppDef_conv_after (st : List ApplicationDefinition)
    (d : ApplicationDefinition)
    (h2 : ∀ a ∈ st, ((a.spec.versions).map (·.version)).Nodup)
    (hdkeys : ((d.spec.versions).map (·.version)).Nodup)
    (hdsort : List.Sorted versionLE d.spec.versions)
    (k1 v1 k2 v2 : String) (hkk : k1 ≠ k2)
    (hdlab : d.labels = [(k1, v1), (k2, v2)]) (hdann : d.anns = []) :
    Converged (reconcileApplicationDefinition st d).1 d := by
  cases hg : getAppDef st d.name with
  | none =>
    rw [reconcileAppDef_eq_none hg]
    exact ⟨d, getAppDef_append_self d st hg,
      Or.inr (updateApplicationDefinition_self d k1 v1 k2 v2 hkk hdlab hdann
        hdkeys hdsort)⟩
  | some e =>
    rw [reconcileAppDef_eq_some hg]
    by_cases hs : isSystemApplication e = true
    · rw [if_pos hs]
      exact ⟨e, hg, Or.inl hs⟩
    · rw [if_neg hs]
      refine ⟨updateApplicationDefinition e d, ?_, Or.inr ?_⟩
      · have hu : (updateApplicationDefinition e d).name = d.name := by
          show e.name = d.name
          exact getAppDef_name hg
        exact getAppDef_put_of_found (by rw [hg]; rfl) hu
      · exact updateApplicationDefinition_idem e d
          (h2 e (List.mem_of_find?_eq_some hg)) hdkeys k1 v1 k2 v2 hkk hdlab hdann

theorem reconcileAppDef_of_converged (st : List ApplicationDefinition)
    (d : ApplicationDefinition) (h1 : (st.map (·.name)).Nodup)
    (hc : Converged st d) :
    reconcileApplicationDefinition st d = (st, []) := by
  obtain ⟨ex, hg, hcase⟩ := hc
  rw [reconcileAppDef_eq_some hg]
  by_cases hs : isSystemApplication ex = true
  · rw [if_pos hs]
  · rcases hcase with hs' | hu
    · exact absurd hs' hs
    · rw [if_neg hs, hu, if_pos rfl]
      have hexn : ex.name = d.name := getAppDef_name hg
      rw [putAppDef_self h1 (by rw [hexn]; exact hg)]

/-- The body of the per-chart loop in `reconcile`, as a named fold step. -/
def chartStep (catalog : ApplicationCatalog)
    (acc : List ApplicationDefinition × List ReconcileEvent) (c : ChartConfig) :
    List ApplicationDefinition × List ReconcileEvent :=
  let d := convertChartToApplicationDefinition catalog c
  let step := reconcileApplicationDefinition acc.1 d
  (step.1, acc.2 ++ step.2)

theorem reconcileCharts_eq (catalog : ApplicationCatalog)
    (charts : List ChartConfig) (st : List ApplicationDefinition) :
    reconcileCharts catalog charts st =
      ((unmanageOrphans (charts.foldl (chartStep catalog) (st, [])).1 catalog.name
          (some (charts.map (·.GetAppName)))).1,
       (charts.foldl (chartStep catalog) (st, [])).2
         ++ (unmanageOrphans (charts.foldl (chartStep catalog) (st, [])).1
          catalog.name (some (charts.map (·.GetAppName)))).2) := rfl

theorem chartLoop_invariant (catalog : ApplicationCatalog) :
    ∀ (charts : List ChartConfig) (st : List ApplicationDefinition)
      (ev : List ReconcileEvent),
      (st.map (·.name)).Nodup →
      (∀ a ∈ st, ((a.spec.versions).map (·.version)).Nodup) →
      (charts.map (·.GetAppName)).Nodup →
      (∀ c ∈ charts, ((c.chartVersions).map (·.appVersion)).Nodup) →
      (∀ c ∈ charts,
        List.Pairwise (fun x y => x.appVersion ≤ y.appVersion) c.chartVersions) →
      ((charts.foldl (chartStep catalog) (st, ev)).1.map (·.name)).Nodup
      ∧ (∀ a ∈ (charts.foldl (chartStep catalog) (st, ev)).1,
          ((a.spec.versions).map (·.version)).Nodup)
      ∧ (∀ n, n ∉ charts.map (·.GetAppName) →
          getAppDef (charts.foldl (chartStep catalog) (st, ev)).1 n = getAppDef st n)
      ∧ (∀ c ∈ charts,
          Converged (charts.foldl (chartStep catalog) (st, ev)).1
            (convertChartToApplicationDefinition catalog c)) := by
  intro charts
  induction charts with
  | nil =>
    intro st ev h1 h2 _ _ _
    exact ⟨h1, h2, fun n _ => rfl, fun c hc => absurd hc (List.not_mem_nil c)⟩
  | cons c cs ih =>
    intro st ev h1 h2 hids hkeys hsort
    have hdkeys : (((convertChartToApplicationDefinition catalog c).spec.versions).map
        (·.version)).Nodup := by
      show ((convertVersions catalog c).map (·.version)).Nodup
      rw [convertVersions_keys]
      exact hkeys c (List.mem_cons_self c cs)
    have hdsort : List.Sorted versionLE
        (convertChartToApplicationDefinition catalog c).spec.versions :=
      convertVersions_sorted catalog c (hsort c (List.mem_cons_self c cs))
    have hmkck : LabelManagedByApplicationCatalog ≠ LabelApplicationCatalogName := by
      decide
    have hids' : (cs.map (·.GetAppName)).Nodup := by
      rw [List.map_cons] at hids
      exact hids.of_cons
    have hhead : c.GetAppName ∉ cs.map (·.GetAppName) := by
      rw [List.map_cons, List.nodup_cons] at hids
      exact hids.1
    have hpair : chartStep catalog (st, ev) c =
        ((reconcileApplicationDefinition st
            (convertChartToApplicationDefinition catalog c)).1,
         ev ++ (reconcileApplicationDefinition st
            (convertChartToApplicationDefinition catalog c)).2) := rfl
    rw [List.foldl_cons, hpair]
    obtain ⟨g1, g2, g3, g4⟩ := ih
      (reconcileApplicationDefinition st
        (convertChartToApplicationDefinition catalog c)).1
      (ev ++ (reconcileApplicationDefinition st
        (convertChartToApplicationDefinition catalog c)).2)
      (reconcileAppDef_names_nodup st _ h1)
      (reconcileAppDef_vers st _ h2 hdkeys)
      hids'
      (fun c' hc' => hkeys c' (List.mem_cons_of_mem c hc'))
      (fun c' hc' => hsort c' (List.mem_cons_of_mem c hc'))
    refine ⟨g1, g2, ?_, ?_⟩
    · intro n hn
      rw [List.map_cons] at hn
      have hn1 : n ≠ c.GetAppName := fun hh => hn (hh ▸ List.mem_cons_self _ _)
      have hn2 : n ∉ cs.map (·.GetAppName) := fun hh => hn (List.mem_cons_of_mem _ hh)
      rw [g3 n hn2]
      exact reconcileAppDef_get_ne st _ hn1
    · intro c' hc'
      rcases List.mem_cons.mp hc' with rfl | hcs
      · have hconv : Converged
            (reconcileApplicationDefinition st
              (convertChartToApplicationDefinition catalog c')).1
            (convertChartToApplicationDefinition catalog c') :=
          reconcileAppDef_conv_after st _ h2 hdkeys hdsort
            LabelManagedByApplicationCatalog "true"
            LabelApplicationCatalogName catalog.name hmkck rfl rfl
        obtain ⟨ex, hex, hcase⟩ := hconv
        refine ⟨ex, ?_, hcase⟩
        have hname : (convertChartToApplicationDefinition catalog c').name
            = c'.GetAppName := rfl
        rw [hname] at hex ⊢
        rw [g3 _ hhead]
        exact hex
      · exact g4 c' hcs

theorem chartLoop_of_converged (catalog : ApplicationCatalog) :
    ∀ (charts : List ChartConfig) (st : List ApplicationDefinition)
      (ev : List ReconcileEvent),
      (st.map (·.name)).Nodup →
      (∀ c ∈ charts,
        Converged st (convertChartToApplicationDefinition catalog c)) →
      charts.foldl (chartStep catalog) (st, ev) = (st, ev) := by
  intro charts
  induction charts with
  | nil => intro st ev _ _; rfl
  | cons c cs ih =>
    intro st ev h1 hcv
    rw [List.foldl_cons]
    have hr := reconcileAppDef_of_converged st
      (convertChartToApplicationDefinition catalog c) h1
      (hcv c (List.mem_cons_self c cs))
    have hstep : chartStep catalog (st, ev) c = (st, ev) := by
      show ((reconcileApplicationDefinition st
          (convertChartToApplicationDefinition catalog c)).1,
        ev ++ (reconcileApplicationDefinition st
          (convertChartToApplicationDefinition catalog c)).2) = (st, ev)
      rw [hr]
      simp
    rw [hstep]
    exact ih st ev h1 (fun c' hc' => hcv c' (List.mem_cons_of_mem c hc'))

theorem removeManagedLabels_not_owned (cn : String) (a : ApplicationDefinition) :
    ownedByCatalog cn (removeManagedLabels a) = false := by
  unfold ownedByCatalog removeManagedLabels
  simp [getA_delA_self]

theorem unmanage_names (st : List ApplicationDefinition) (cn : String)
    (g : Option (List String)) :
    (unmanageOrphans st cn g).1.map (·.name) = st.map (·.name) := by
  unfold unmanageOrphans
  rw [List.map_map]
  apply List.map_congr_left
  intro a _
  show (if ownedByCatalog cn a && isOrphanTarget g a then removeManagedLabels a
    else a).name = a.name
  by_cases hc : (ownedByCatalog cn a && isOrphanTarget g a) = true
  · rw [if_pos hc]
    rfl
  · rw [if_neg hc]

theorem getAppDef_unmanage_mem (st : List ApplicationDefinition) (cn : String)
    (g : List String) {n : String} (hg : n ∈ g) :
    getAppDef (unmanageOrphans st cn (some g)).1 n = getAppDef st n := by
  unfold unmanageOrphans getAppDef
  induction st with
  | nil => rfl
  | cons a l ih =>
    rw [List.map_cons]
    by_cases hc : (ownedByCatalog cn a && isOrphanTarget (some g) a) = true
    · have han : ¬ (a.name = n) := by
        intro hh
        rw [Bool.and_eq_true] at hc
        have h2 := hc.2
        unfold isOrphanTarget at h2
        rw [hh] at h2
        rw [decide_eq_true_iff] at h2
        exact h2 (List.elem_iff.mpr hg)
      rw [if_pos hc,
        List.find?_cons_of_neg _ (by simpa [removeManagedLabels] using han),
        List.find?_cons_of_neg _ (by simpa using han)]
      exact ih
    · rw [if_neg hc]
      by_cases han : a.name = n
      · rw [List.find?_cons_of_pos _ (by simpa using han),
          List.find?_cons_of_pos _ (by simpa using han)]
      · rw [List.find?_cons_of_neg _ (by simpa using han),
          List.find?_cons_of_neg _ (by simpa using han)]
        exact ih

theorem unmanageOrphans_idem (st : List ApplicationDefinition) (cn : String)
    (g : Option (List String)) :
    unmanageOrphans (unmanageOrphans st cn g).1 cn g
      = ((unmanageOrphans st cn g).1, []) := by
  have hfix : ∀ a ∈ st,
      (ownedByCatalog cn (if ownedByCatalog cn a && isOrphanTarget g a then
          removeManagedLabels a else a)
        && isOrphanTarget g (if ownedByCatalog cn a && isOrphanTarget g a then
          removeManagedLabels a else a)) = false := by
    intro a _
    by_cases hc : (ownedByCatalog cn a && isOrphanTarget g a) = true
    · rw [if_pos hc, removeManagedLabels_not_owned]
      rfl
    · rw [if_neg hc]
      exact Bool.eq_false_iff.mpr hc
  unfold unmanageOrphans
  refine Prod.ext ?_ ?_
  · show (st.map _).map _ = st.map _
    rw [List.map_map]
    apply List.map_congr_left
    intro a ha
    show (if _ && _ then _ else _) = _
    rw [if_neg (Bool.eq_false_iff.mp (hfix a ha))]
  · show ((st.map _).filter _).map _ = []
    rw [List.map_eq_nil_iff]
    rw [List.filter_eq_nil_iff]
    intro b hb
    obtain ⟨a, ha, hab⟩ := List.mem_map.mp hb
    intro hcond
    rw [Bool.and_eq_true] at hcond
    have h1 := hcond.1
    rw [Bool.and_eq_true] at h1
    have hfa := hfix a ha
    rw [hab] at hfa
    rw [h1.1, h1.2] at hfa
    cases hfa

theorem reconcileCharts_second_run (catalog : ApplicationCatalog)
    (charts : List ChartConfig) (st : List ApplicationDefinition)
    (h1 : (st.map (·.name)).Nodup)
    (h2 : ∀ a ∈ st, ((a.spec.versions).map (·.version)).Nodup)
    (hids : (charts.map (·.GetAppName)).Nodup)
    (hkeys : ∀ c ∈ charts, ((c.chartVersions).map (·.appVersion)).Nodup)
    (hsort : ∀ c ∈ charts,
      List.Pairwise (fun x y => x.appVersion ≤ y.appVersion) c.chartVersions) :
    reconcileCharts catalog charts (reconcileCharts catalog charts st).1
      = ((reconcileCharts catalog charts st).1, []) := by
  obtain ⟨g1, g2, g3, g4⟩ :=
    chartLoop_invariant catalog charts st [] h1 h2 hids hkeys hsort
  have hnames1 : ((reconcileCharts catalog charts st).1.map (·.name)).Nodup := by
    rw [reconcileCharts_eq]
    show ((unmanageOrphans _ _ _).1.map (·.name)).Nodup
    rw [unmanage_names]
    exact g1
  have hconv1 : ∀ c ∈ charts,
      Converged (reconcileCharts catalog charts st).1
        (convertChartToApplicationDefinition catalog c) := by
    intro c hc
    obtain ⟨ex, hex, hcase⟩ := g4 c hc
    refine ⟨ex, ?_, hcase⟩
    rw [reconcileCharts_eq]
    show getAppDef (unmanageOrphans _ _ _).1 _ = some ex
    rw [show (convertChartToApplicationDefinition catalog c).name = c.GetAppName
      from rfl] at hex ⊢
    rw [getAppDef_unmanage_mem _ _ _ (List.mem_map.mpr ⟨c, hc, rfl⟩)]
    exact hex
  have hloop2 : charts.foldl (chartStep catalog)
      ((reconcileCharts catalog charts st).1, []) =
      ((reconcileCharts catalog charts st).1, []) :=
    chartLoop_of_converged catalog charts _ [] hnames1 hconv1
  rw [reconcileCharts_eq catalog charts (reconcileCharts catalog charts st).1,
    hloop2]
  have horph : unmanageOrphans (reconcileCharts catalog charts st).1 catalog.name
      (some (charts.map (·.GetAppName)))
      = ((reconcileCharts catalog charts st).1, []) := by
    rw [reconcileCharts_eq catalog charts st]
    show unmanageOrphans (unmanageOrphans _ _ _).1 _ _ = _
    exact unmanageOrphans_idem _ _ _
  rw [horph]
  rfl

theorem reconcile_eq_none (catalog : ApplicationCatalog)
    (store : List ApplicationDefinition) (hc : catalog.GetHelmCharts = none) :
    reconcile catalog store =
      (if (catalog.helm.map (·.includeDefaults)).getD false then
        (store, [], .requeue)
       else ((reconcileCharts catalog [] store).1,
        (reconcileCharts catalog [] store).2, .done)) := by
  unfold reconcile
  split
  · rfl
  · rename_i charts h
    rw [hc] at h
    cases h

theorem reconcile_eq_some (catalog : ApplicationCatalog)
    (store : List ApplicationDefinition) {charts : List ChartConfig}
    (hc : catalog.GetHelmCharts = some charts) :
    reconcile catalog store =
      ((reconcileCharts catalog charts store).1,
       (reconcileCharts catalog charts store).2, .done) := by
  unfold reconcile
  split
  · rename_i h
    rw [hc] at h
    cases h
  · rename_i cs h
    rw [hc] at h
    injection h with h'
    subst h'
    rfl

/-- A chart whose version list is declared in descending key order. -/
def w9chart : ChartConfig :=
  ⟨"argo-cd", none, none, "",
    [⟨"9.0.2", "v3.2.0", none⟩, ⟨"9.0.1", "v3.1.0", none⟩]⟩

/-- A catalog declaring only `w9chart`. -/
def w9catalog : ApplicationCatalog :=
  ⟨"cat9", [], some ⟨none, some [w9chart], false⟩⟩

/-- C9 counterexample: reconciliation is not idempotent as claimed. Creating
a fresh downstream resource stores the converted versions in declaration
order, while the update path sorts the merged versions; for a catalog whose
chart declares its versions out of ascending order, the second reconcile run
over the unchanged catalog and the first run's output state still issues a
(non-empty) patch re-sorting the version list. -/
theorem reconcile_idempotence_counterexample :
    (reconcile w9catalog (reconcile w9catalog []).1).2.1 ≠ [] := by decide

/-- C9 (amended): the reconcile step is idempotent whenever each chart
declares its versions in ascending key order. Under duplicate-free resource
names and per-resource version keys in the cluster state, duplicate-free
chart identities and per-chart version keys, and each chart's versions
declared ascending, a second reconcile run in immediate succession over the
unchanged catalog and the state produced by the first run issues no creates
and no non-empty patches, leaves the state unchanged, and reports the same
outcome: the converged state is a fixed point. -/
theorem reconcile_second_run_is_noop (catalog : ApplicationCatalog)
    (store : List ApplicationDefinition)
    (hnames : (store.map (·.name)).Nodup)
    (hvers : ∀ a ∈ store, ((a.spec.versions).map (·.version)).Nodup)
    (hids : (((catalog.GetHelmCharts).getD []).map (·.GetAppName)).Nodup)
    (hkeys : ∀ c ∈ (catalog.GetHelmCharts).getD [],
      ((c.chartVersions).map (·.appVersion)).Nodup)
    (hsort : ∀ c ∈ (catalog.GetHelmCharts).getD [],
      List.Pairwise (fun x y => x.appVersion ≤ y.appVersion) c.chartVersions) :
    reconcile catalog (reconcile catalog store).1
      = ((reconcile catalog store).1, [], (reconcile catalog store).2.2) := by
  cases hc : catalog.GetHelmCharts with
  | none =>
    by_cases hb : ((catalog.helm.map (·.includeDefaults)).getD false) = true
    · have hr1 : reconcile catalog store = (store, [], .requeue) := by
        rw [reconcile_eq_none catalog store hc, if_pos hb]
      rw [hr1]
      show reconcile catalog store = (store, [], .requeue)
      rw [reconcile_eq_none catalog store hc, if_pos hb]
    · have hr1 : reconcile catalog store =
          ((reconcileCharts catalog [] store).1,
           (reconcileCharts catalog [] store).2, .done) := by
        rw [reconcile_eq_none catalog store hc, if_neg hb]
      rw [hr1]
      show reconcile catalog (reconcileCharts catalog [] store).1
        = ((reconcileCharts catalog [] store).1, [], .done)
      rw [reconcile_eq_none catalog _ hc, if_neg hb,
        reconcileCharts_second_run catalog [] store hnames hvers (by simp)
          (by simp) (by simp)]
  | some charts =>
    have hr1 : reconcile catalog store =
        ((reconcileCharts catalog charts store).1,
         (reconcileCharts catalog charts store).2, .done) :=
      reconcile_eq_some catalog store hc
    rw [hc] at hids hkeys hsort
    have hids' : (charts.map (·.GetAppName)).Nodup := hids
    have hkeys' : ∀ c ∈ charts, ((c.chartVersions).map (·.appVersion)).Nodup :=
      hkeys
    have hsort' : ∀ c ∈ charts,
        List.Pairwise (fun x y => x.appVersion ≤ y.appVersion) c.chartVersions :=
      hsort
    rw [hr1]
    show reconcile catalog (reconcileCharts catalog charts store).1
      = ((reconcileCharts catalog charts store).1, [], .done)
    rw [reconcile_eq_some catalog _ hc,
      reconcileCharts_second_run catalog charts store hnames hvers hids'
        hkeys' hsort']

/-- A chart declaring a single version (trivially ascending). -/
def w9chartW : ChartConfig :=
  ⟨"cert-manager", none, none, "", [⟨"1.2.3", "v1.2.3", none⟩]⟩

/-- A catalog declaring only `w9chartW`. -/
def w9catalogW : ApplicationCatalog :=
  ⟨"cat9w", [], some ⟨none, some [w9chartW], false⟩⟩

/-- C9 witness: the amended idempotence theorem applied to a concrete
ascending-ordered catalog over the empty cluster state. -/
theorem reconcile_second_run_witness :
    reconcile w9catalogW (reconcile w9catalogW []).1
      = ((reconcile w9catalogW []).1, [], (reconcile w9catalogW []).2.2) :=
  reconcile_second_run_is_noop w9catalogW [] (by simp) (by simp) (by decide)
    (by decide) (by simp [w9catalogW, ApplicationCatalog.GetHelmCharts, w9chartW])
